import Mathlib

/-!
Verification of the libvata tree-automata inclusion core against its
specification.  The C++ sources are shallowly embedded as executable Lean
functions: pure loops become folds or structural recursions, the worklist
loops become fuel-indexed recursions returning `Option`, machine integers
become `Nat`.  Components whose implementation files are not part of the
source tree (the antichain containers, the binary-relation matrix, the
tuple-set iteration driver) are modelled from the specification text; the
corresponding definitions carry a doc comment starting with
`Modelled from the spec:`.
-/

namespace Vata

/-! ## Basic list helpers shared by several components -/

/-- Membership test on a list of naturals (used for state sets and final
state sets). -/
def memNat (s : Nat) (l : List Nat) : Bool :=
  l.any (fun x => x == s)

/-- Embeds `checkIntersection` of `explicit_tree_incl_up.cc`: do two state
collections intersect?  The C++ walks two sorted ranges; on sets this is
exactly a non-empty intersection test. -/
def checkIntersection (s1 s2 : List Nat) : Bool :=
  s1.any (fun x => memNat x s2)

/-- Insertion into an ordered vector without duplicates (the behaviour of
`VATA::Util::OrdVector::insert`, whose lists are sorted and duplicate
free). -/
def ordInsert (x : Nat) : List Nat → List Nat
  | [] => [x]
  | y :: ys =>
    if x < y then x :: y :: ys
    else if x == y then y :: ys
    else y :: ordInsert x ys

/-- Ascending insertion sort, standing in for `std::sort` on a vector of
states. -/
def sortNat (l : List Nat) : List Nat :=
  l.foldr ordInsert []

/-!
## Sequential choice-function generator

Embedding of `SequentialChoiceFunctionGenerator` from
`include/vata/down_tree_incl_fctor.hh` (lines 184-233).  The generator
state holds the current choice function (entry 0 is incremented first),
the range and the `lastCnt_` countdown that starts at `2` and is
decremented on every wrap-around of the whole vector.
-/

structure CfGen where
  currentCf : List Nat
  range : Nat
  lastCnt : Nat
deriving Repr, DecidableEq

/-- Constructor `SequentialChoiceFunctionGenerator(length, range)`:
the vector starts at `range-1` everywhere and `lastCnt_` is `2`
(`0` when the range is zero). -/
def CfGen.start (length range : Nat) : CfGen :=
  { currentCf := List.replicate length (range - 1)
    range := range
    lastCnt := if range == 0 then 0 else 2 }

/-- The increment loop inside `GetNext`: `++currentCf_[index]` with carry;
returns the new vector and whether the index fell off the end (the
wrap-around case that decrements `lastCnt_`). -/
def cfInc (range : Nat) : List Nat → List Nat × Bool
  | [] => ([], true)
  | d :: ds =>
    if d + 1 == range then
      let r := cfInc range ds
      (0 :: r.1, r.2)
    else ((d + 1) :: ds, false)

/-- Embeds `GetNext`: step the odometer, count a wrap against
`lastCnt_`, and return the new choice function together with the new
generator state. -/
def CfGen.getNext (g : CfGen) : List Nat × CfGen :=
  let r := cfInc g.range g.currentCf
  (r.1, { g with currentCf := r.1, lastCnt := if r.2 then g.lastCnt - 1 else g.lastCnt })

/-- Embeds `IsLast`: the countdown reached zero. -/
def CfGen.isLast (g : CfGen) : Bool :=
  g.lastCnt == 0

/-- The client loop `while (!cfGen.IsLast()) { cf = cfGen.GetNext(); … }`
(used at `down_tree_incl_fctor.hh:498`), collecting every choice function
handed to the loop body.  Fuel-indexed; `cfFuel` below always suffices. -/
def cfRun : Nat → CfGen → List (List Nat)
  | 0, _ => []
  | fuel + 1, g =>
    if g.isLast then []
    else
      let r := g.getNext
      r.1 :: cfRun fuel r.2

/-- Enough fuel to exhaust a generator over `k` slots and range `n`. -/
def cfFuel (k n : Nat) : Nat :=
  n ^ k + 2

/-- The full sequence of choice functions the generator hands to its
client, for `k` slots over range `n`. -/
def cfSeq (k n : Nat) : List (List Nat) :=
  cfRun (cfFuel k n) (CfGen.start k n)

/-- Little-endian base-`n` digit vector of length `k` — the reference
enumeration the generator is compared against. -/
def natDigits (n : Nat) : Nat → Nat → List Nat
  | 0, _ => []
  | k + 1, v => (v % n) :: natDigits n k (v / n)

/-- Value of a little-endian digit vector, inverse to `natDigits`. -/
def digitsVal (n : Nat) : List Nat → Nat
  | [] => 0
  | d :: ds => d + n * digitsVal n ds

theorem natDigits_digitsVal (n : Nat) (hn : 0 < n) :
    ∀ v : List Nat, (∀ x ∈ v, x < n) → natDigits n v.length (digitsVal n v) = v := by
  intro v
  induction v with
  | nil => intro _; rfl
  | cons d ds ih =>
    intro hb
    have hd : d < n := hb d (by simp)
    have hmod : (d + n * digitsVal n ds) / n = digitsVal n ds ∧
        (d + n * digitsVal n ds) % n = d :=
      (Nat.div_mod_unique hn).2 ⟨rfl, hd⟩
    simp only [List.length_cons, natDigits, digitsVal, hmod.1, hmod.2]
    exact congrArg (d :: ·) (ih (fun x hx => hb x (by simp [hx])))

theorem digitsVal_lt (n : Nat) :
    ∀ v : List Nat, (∀ x ∈ v, x < n) → digitsVal n v < n ^ v.length := by
  intro v
  induction v with
  | nil => intro _; simp [digitsVal]
  | cons d ds ih =>
    intro hb
    have hd : d < n := hb d (by simp)
    have hds := ih (fun x hx => hb x (by simp [hx]))
    simp only [digitsVal, List.length_cons, pow_succ]
    calc d + n * digitsVal n ds < n + n * digitsVal n ds := by omega
      _ = n * (digitsVal n ds + 1) := by ring
      _ ≤ n * n ^ ds.length := by
          exact Nat.mul_le_mul_left n (by omega)
      _ = n ^ ds.length * n := by ring

theorem digitsVal_natDigits (n : Nat) (_hn : 0 < n) :
    ∀ k x : Nat, x < n ^ k → digitsVal n (natDigits n k x) = x := by
  intro k
  induction k with
  | zero =>
    intro x hx
    have hx0 : x = 0 := by simpa using hx
    subst hx0
    rfl
  | succ k ih =>
    intro x hx
    have hrec : x / n < n ^ k := by
      have h1 : x < n ^ k * n := by simpa [pow_succ] using hx
      exact Nat.div_lt_of_lt_mul (by simpa [Nat.mul_comm] using h1)
    have hdm := Nat.div_add_mod x n
    simp only [natDigits, digitsVal, ih (x / n) hrec]
    omega

/-- One odometer step on a digit vector: incrementing the digits of `v`
yields the digits of `v + 1`, wrapping (with the flag set) exactly at the
maximal vector. -/
theorem cfInc_natDigits (n : Nat) (hn : 0 < n) :
    ∀ k v : Nat, v < n ^ k →
      cfInc n (natDigits n k v) =
        (if v + 1 = n ^ k then (natDigits n k 0, true)
         else (natDigits n k (v + 1), false)) := by
  intro k
  induction k with
  | zero =>
    intro v hv
    have hv0 : v = 0 := by simpa using hv
    subst hv0
    simp [cfInc, natDigits]
  | succ k ih =>
    intro v hv
    have hrec : v / n < n ^ k := by
      have h1 : v < n ^ k * n := by simpa [pow_succ] using hv
      exact Nat.div_lt_of_lt_mul (by simpa [Nat.mul_comm] using h1)
    have hmod : v % n < n := Nat.mod_lt _ hn
    have hdm := Nat.div_add_mod v n
    by_cases hcarry : v % n + 1 = n
    · -- the low digit wraps
      have hmul : n * (v / n + 1) = n * (v / n) + n := by ring
      have hv1 : v + 1 = n * (v / n + 1) := by omega
      have hc : (v % n + 1 == n) = true := by simpa using hcarry
      by_cases htop : v / n + 1 = n ^ k
      · have hvtop : v + 1 = n ^ (k + 1) := by
          rw [hv1, htop, pow_succ, Nat.mul_comm]
        simp only [natDigits, cfInc, hc, if_true, ih (v / n) hrec, if_pos htop,
          if_pos hvtop]
        simp [natDigits, Nat.zero_div, Nat.zero_mod]
      · have hvtop : v + 1 ≠ n ^ (k + 1) := by
          intro h
          apply htop
          have hmm : n * (v / n + 1) = n * n ^ k := by
            rw [← hv1, h, pow_succ, Nat.mul_comm]
          exact Nat.eq_of_mul_eq_mul_left hn hmm
        have hq : (v + 1) / n = v / n + 1 ∧ (v + 1) % n = 0 :=
          (Nat.div_mod_unique hn).2 ⟨by omega, hn⟩
        simp only [natDigits, cfInc, hc, if_true, ih (v / n) hrec, if_neg htop,
          if_neg hvtop]
        simp [natDigits, hq.1, hq.2]
    · -- no carry
      have hlow : v % n + 1 < n := by omega
      have hq : (v + 1) / n = v / n ∧ (v + 1) % n = v % n + 1 :=
        (Nat.div_mod_unique hn).2 ⟨by omega, hlow⟩
      have hvtop : v + 1 ≠ n ^ (k + 1) := by
        intro h
        have hz : (v + 1) % n = 0 := by
          rw [h, pow_succ]
          simp
        omega
      have hc : (v % n + 1 == n) = false := by simp [hcarry]
      simp only [natDigits, cfInc, hc, Bool.false_eq_true, if_false, if_neg hvtop]
      simp [natDigits, hq.1, hq.2]

/-- The generator's initial vector is the digit vector of `n ^ k - 1`. -/
theorem replicate_natDigits (n : Nat) (hn : 0 < n) :
    ∀ k : Nat, List.replicate k (n - 1) = natDigits n k (n ^ k - 1) := by
  intro k
  induction k with
  | zero => rfl
  | succ k ih =>
    have hpow : 0 < n ^ k := Nat.pos_pow_of_pos k hn
    have hval : (n - 1) + n * (n ^ k - 1) = n ^ (k + 1) - 1 := by
      obtain ⟨j, hj⟩ : ∃ j, n ^ k = j + 1 := ⟨n ^ k - 1, by omega⟩
      have h1 : n ^ (k + 1) = n * (j + 1) := by rw [pow_succ, hj]; ring
      have h2 : n * (j + 1) = n * j + n := by ring
      rw [hj, h1]
      simp only [Nat.add_sub_cancel]
      omega
    have hq : (n ^ (k + 1) - 1) / n = n ^ k - 1 ∧ (n ^ (k + 1) - 1) % n = n - 1 :=
      (Nat.div_mod_unique hn).2 ⟨hval, by omega⟩
    simp [List.replicate_succ, natDigits, hq.1, hq.2, ih]

theorem cfRun_done (fuel : Nat) (g : CfGen) (h : g.lastCnt = 0) :
    cfRun fuel g = [] := by
  cases fuel with
  | zero => rfl
  | succ fuel => simp [cfRun, CfGen.isLast, h]

/-- After the first wrap (`lastCnt_ = 1`), the run from the digit vector of
`v` emits the digit vectors of `v+1, …, n^k - 1` followed by one final
all-zero vector produced by the second wrap. -/
theorem cfRun_from_digits (n k : Nat) (hn : 0 < n) :
    ∀ fuel v : Nat, v < n ^ k → n ^ k - v ≤ fuel →
      cfRun fuel { currentCf := natDigits n k v, range := n, lastCnt := 1 } =
        ((List.range (n ^ k - 1 - v)).map (fun i => natDigits n k (v + 1 + i))) ++
          [natDigits n k 0] := by
  intro fuel
  induction fuel with
  | zero => intro v hv hf; omega
  | succ fuel ih =>
    intro v hv hf
    by_cases hlastv : v + 1 = n ^ k
    · have hstep : cfInc n (natDigits n k v) = (natDigits n k 0, true) := by
        rw [cfInc_natDigits n hn k v hv, if_pos hlastv]
      have hz : n ^ k - 1 - v = 0 := by omega
      simp [cfRun, CfGen.isLast, CfGen.getNext, hstep, hz, cfRun_done]
    · have hstep : cfInc n (natDigits n k v) = (natDigits n k (v + 1), false) := by
        rw [cfInc_natDigits n hn k v hv, if_neg hlastv]
      have hv1 : v + 1 < n ^ k := by omega
      have hih := ih (v + 1) hv1 (by omega)
      have hrange : n ^ k - 1 - v = (n ^ k - 1 - (v + 1)) + 1 := by omega
      simp only [cfRun, CfGen.isLast, CfGen.getNext, hstep]
      norm_num
      rw [hih, hrange, List.range_succ_eq_map]
      simp only [List.map_cons, List.map_map, Nat.add_zero, List.cons_append]
      refine congrArg₂ _ rfl (congrArg₂ _ ?_ rfl)
      refine congrArg₂ _ ?_ rfl
      funext i
      simp only [Function.comp_apply]
      exact congrArg (natDigits n k) (by omega)

theorem cfSeq_characterization (k n : Nat) (hn : 1 ≤ n) :
    cfSeq k n = (List.range (n ^ k)).map (natDigits n k) ++ [natDigits n k 0] := by
  have hpow : 0 < n ^ k := Nat.pos_pow_of_pos k hn
  have hn0 : (n == 0) = false := by simp; omega
  have hinit : CfGen.start k n =
      { currentCf := natDigits n k (n ^ k - 1), range := n, lastCnt := 2 } := by
    simp [CfGen.start, hn0, replicate_natDigits n hn k]
  have hstep : cfInc n (natDigits n k (n ^ k - 1)) = (natDigits n k 0, true) := by
    rw [cfInc_natDigits n hn k (n ^ k - 1) (by omega), if_pos (by omega)]
  have hfuel : cfFuel k n = (n ^ k + 1) + 1 := by simp [cfFuel]
  rw [cfSeq, hinit, hfuel, cfRun]
  simp only [CfGen.isLast, CfGen.getNext, hstep]
  norm_num
  rw [cfRun_from_digits n k hn (n ^ k + 1) 0 hpow (by omega)]
  have hr : n ^ k = (n ^ k - 1) + 1 := by omega
  rw [hr, List.range_succ_eq_map]
  simp only [List.map_cons, List.map_map, Nat.sub_zero, List.cons_append, natDigits]
  refine congrArg₂ _ rfl (congrArg₂ _ (congrArg₂ _ ?_ rfl) rfl)
  funext i
  simp only [Function.comp_apply]
  exact congrArg (natDigits n k) (by omega)

/-- Claim C8 (amended): for `k ≥ 1` and `n ≥ 1` the sequence of choice
functions handed out by successive `GetNext` calls until `IsLast` holds is
the base-`n` odometer sequence `0, 1, …, n^k - 1` (entry `0` varying
fastest, i.e. colexicographic rather than lexicographic order on the
vectors) followed by the all-zero vector a second time; every vector of
length `k` with entries in `[0, n)` occurs in the odometer part exactly
once. -/
theorem cfGen_enumerates_colex_with_duplicate (k n : Nat) (_hk : 1 ≤ k) (hn : 1 ≤ n) :
    cfSeq k n = (List.range (n ^ k)).map (natDigits n k) ++ [natDigits n k 0] ∧
    (∀ v : List Nat, v.length = k → (∀ x ∈ v, x < n) →
      v ∈ (List.range (n ^ k)).map (natDigits n k)) ∧
    ((List.range (n ^ k)).map (natDigits n k)).Nodup := by
  refine ⟨cfSeq_characterization k n hn, ?_, ?_⟩
  · intro v hlen hbound
    refine List.mem_map.2 ⟨digitsVal n v, ?_, ?_⟩
    · refine List.mem_range.2 ?_
      have := digitsVal_lt n v hbound
      rw [hlen] at this
      exact this
    · have := natDigits_digitsVal n hn v hbound
      rw [hlen] at this
      exact this
  · refine (List.nodup_range (n ^ k)).map_on ?_
    intro x hx y hy hxy
    have hx' : x < n ^ k := List.mem_range.1 hx
    have hy' : y < n ^ k := List.mem_range.1 hy
    have hvx := digitsVal_natDigits n hn k x hx'
    have hvy := digitsVal_natDigits n hn k y hy'
    rw [← hvx, ← hvy, hxy]

/-- Witness for the amended claim C8 at `k = 2`, `n = 2`. -/
theorem cfGen_enumerates_colex_with_duplicate_witness :
    1 ≤ 2 ∧
    (cfSeq 2 2 = (List.range (2 ^ 2)).map (natDigits 2 2) ++ [natDigits 2 2 0] ∧
      (∀ v : List Nat, v.length = 2 → (∀ x ∈ v, x < 2) →
        v ∈ (List.range (2 ^ 2)).map (natDigits 2 2)) ∧
      ((List.range (2 ^ 2)).map (natDigits 2 2)).Nodup) :=
  ⟨by decide, cfGen_enumerates_colex_with_duplicate 2 2 (by decide) (by decide)⟩

/-- Counterexample to claim C8 as stated: for `k = 2`, `n = 2` the
generator hands out five vectors, the all-zero vector occurring twice, and
the order is not lexicographic (position 0 varies fastest). -/
theorem cfGen_claim_counterexample :
    cfSeq 2 2 = [[0, 0], [1, 0], [0, 1], [1, 1], [0, 0]] ∧
    (cfSeq 2 2).count [0, 0] = 2 ∧
    cfSeq 2 2 ≠ [[0, 0], [0, 1], [1, 0], [1, 1]] := by decide

/-!
## Downward inclusion functor

Embedding of `VATA::DownwardInclusionFunctor`
(`include/vata/down_tree_incl_fctor.hh`).  The functor-local state
(`processingStopped_`, `inclusionHolds_`, `childrenCache_`) and the shared
references (`workset_`, `nonIncl_`) are gathered into one record that is
threaded explicitly; the mutual recursion `expand` →
`ForeachDownSymbolFromStateAndStateSetDo` → `operator()` → `expand` is
fuel-indexed, every call consuming one unit.
-/

/-- An `OrdVector` of states: a sorted duplicate-free list. -/
abbrev StateSet := List Nat

/-- Embeds `SetComparerSmaller::operator()(lhs, rhs)` (lines 119-140):
true iff every state of `rhs` is preorder-below some state of `lhs`. -/
def setComparerSmaller (pre : Nat → Nat → Bool) (lhs rhs : StateSet) : Bool :=
  rhs.all (fun rhsState => lhs.any (fun lhsState => pre rhsState lhsState))

/-- Embeds `SetComparerBigger::operator()(lhs, rhs)` (lines 156-177):
true iff every state of `lhs` is preorder-below some state of `rhs`. -/
def setComparerBigger (pre : Nat → Nat → Bool) (lhs rhs : StateSet) : Bool :=
  lhs.all (fun lhsState => rhs.any (fun rhsState => pre lhsState rhsState))

/-- The pointwise lift of the specification text: `X ⊑ Y` iff every state
in `X` is `R`-dominated by some state in `Y`. -/
def pointwiseLift (pre : Nat → Nat → Bool) (X Y : StateSet) : Bool :=
  X.all (fun x => Y.any (fun y => pre x y))

/-- Modelled from the spec: `Antichain2Cv2.contains(K, v, cmp)` — the
container header is not among the sources; per the spec it is true iff some
stored pair `(k', v')` has `k' ∈ K` and `cmp(v', v)`. -/
def ac2contains (data : List (Nat × StateSet)) (keys : List Nat)
    (v : StateSet) (cmp : StateSet → StateSet → Bool) : Bool :=
  data.any (fun kv => memNat kv.1 keys && cmp kv.2 v)

/-- Modelled from the spec: `Antichain2Cv2.refine(K, v, cmp)` removes every
stored pair `(k', v')` with `k' ∈ K` and `cmp(v, v')`. -/
def ac2refine (data : List (Nat × StateSet)) (keys : List Nat)
    (v : StateSet) (cmp : StateSet → StateSet → Bool) : List (Nat × StateSet) :=
  data.filter (fun kv => !(memNat kv.1 keys && cmp v kv.2))

/-- Modelled from the spec: `Antichain2Cv2.insert(k, v)` appends the pair. -/
def ac2insert (data : List (Nat × StateSet)) (k : Nat) (v : StateSet) :
    List (Nat × StateSet) :=
  data ++ [(k, v)]

/-- Modelled from the spec: `Antichain2Cv2.lookup(k)` lists the stored
macro-states under key `k`. -/
def ac2lookup (data : List (Nat × StateSet)) (k : Nat) : List StateSet :=
  (data.filter (fun kv => kv.1 == k)).map (fun kv => kv.2)

/-- The parameters of a downward inclusion run: the preorder with its two
index views and the two automata, reduced to the top-down transition views
the functor consumes. -/
structure DownCfg where
  preorder : Nat → Nat → Bool
  preorderSmaller : Nat → List Nat
  preorderBigger : Nat → List Nat
  symbols : List Nat
  smallerDown : Nat → Nat → List (List Nat)
  biggerDown : Nat → Nat → List (List Nat)

/-- The mutable state of one functor instance together with the shared
workset and non-inclusion antichain it references. -/
structure DownSt where
  processingStopped : Bool
  inclusionHolds : Bool
  childrenCache : List (Nat × StateSet)
  workset : List (Nat × StateSet)
  nonIncl : List (Nat × StateSet)
deriving Repr, DecidableEq

/-- Embeds `failProcessing` (lines 320-324). -/
def failProcessing (st : DownSt) : DownSt :=
  { st with inclusionHolds := false, processingStopped := true }

/-- Embeds `isInWorkset` (lines 327-341): some workset pair `(p', S')` has
`p R p'` and `SetComparerSmaller(S', S)`. -/
def isInWorkset (cfg : DownCfg) (ws : List (Nat × StateSet))
    (p : Nat) (S : StateSet) : Bool :=
  ws.any (fun pr => cfg.preorder p pr.1 && setComparerSmaller cfg.preorder pr.2 S)

/-- Embeds `isImpliedByChildren` (lines 343-347). -/
def isImpliedByChildren (cfg : DownCfg) (cc : List (Nat × StateSet))
    (p : Nat) (S : StateSet) : Bool :=
  ac2contains cc (cfg.preorderBigger p) S (setComparerSmaller cfg.preorder)

/-- Embeds `isNoninclusionImplied` (lines 349-353). -/
def isNoninclusionImplied (cfg : DownCfg) (ni : List (Nat × StateSet))
    (p : Nat) (S : StateSet) : Bool :=
  ac2contains ni (cfg.preorderSmaller p) S (setComparerBigger cfg.preorder)

/-- Embeds `isImpliedByPreorder` (lines 355-366). -/
def isImpliedByPreorder (cfg : DownCfg) (p : Nat) (S : StateSet) : Bool :=
  S.any (fun biggerState => cfg.preorder p biggerState)

/-- Modelled from the spec: the tuple set `R_σ` of the bigger automaton —
the union, over `s ∈ S`, of the down-transitions of `s` under `σ`
(assembled by `Aut::ForeachDownSymbolFromStateAndStateSetDo`, whose
implementation is not among the sources). -/
def biggerTuples (cfg : DownCfg) (S : StateSet) (symbol : Nat) :
    List (List Nat) :=
  ((S.map (fun s => cfg.biggerDown s symbol)).flatten).dedup

/-- Embeds `rhsSetForTuplePos` construction inside `operator()` (lines
505-519): collect the `tuplePos`-th state of every right-hand tuple the
choice function assigns to `tuplePos`. -/
def rhsSetForTuplePos (rhsVector : List (List Nat)) (cf : List Nat)
    (tuplePos : Nat) : StateSet :=
  (cf.zip rhsVector).foldl
    (fun acc pr => if pr.1 == tuplePos then ordInsert (pr.2.getD tuplePos 0) acc else acc)
    []

mutual

/-- Embeds `DownwardInclusionFunctor::expand` (lines 261-318): consult the
four filters, otherwise insert `(p, S)` into the workset, run the inner
functor over all symbols, remove the pair again and cache the verdict. -/
def expand : Nat → DownCfg → DownSt → Nat → StateSet → Option (Bool × DownSt)
  | 0, _, _, _, _ => none
  | fuel + 1, cfg, st, p, S =>
    if isInWorkset cfg st.workset p S then some (true, st)
    else if isNoninclusionImplied cfg st.nonIncl p S then some (false, st)
    else if isImpliedByChildren cfg st.childrenCache p S then some (true, st)
    else if isImpliedByPreorder cfg p S then some (true, st)
    else
      match foreachDown fuel cfg p S
          { processingStopped := false, inclusionHolds := true, childrenCache := [],
            workset := st.workset ++ [(p, S)], nonIncl := st.nonIncl } with
      | none => none
      | some inner =>
        let ws2 := inner.workset.erase (p, S)
        if inner.inclusionHolds then
          some (true,
            { st with
                childrenCache :=
                  ac2insert
                    (ac2refine st.childrenCache (cfg.preorderSmaller p) S
                      (setComparerSmaller cfg.preorder)) p S
                workset := ws2
                nonIncl := inner.nonIncl })
        else
          some (false,
            { st with
                workset := ws2
                nonIncl :=
                  ac2insert
                    (ac2refine inner.nonIncl (cfg.preorderBigger p) S
                      (setComparerBigger cfg.preorder)) p S })

/-- Modelled from the spec: the iteration driver
`Aut::ForeachDownSymbolFromStateAndStateSetDo` — for each symbol, hand the
smaller state's tuple set and the union tuple set of the bigger macro-state
to a freshly constructed inner functor. -/
def foreachDown : Nat → DownCfg → Nat → StateSet → DownSt → Option DownSt
  | 0, _, _, _, _ => none
  | fuel + 1, cfg, p, S, st => foreachSymbols fuel cfg p S cfg.symbols st

/-- Modelled from the spec: the per-symbol loop of the iteration driver,
stopping once the functor reports `IsProcessingStopped`. -/
def foreachSymbols : Nat → DownCfg → Nat → StateSet → List Nat → DownSt →
    Option DownSt
  | 0, _, _, _, _, _ => none
  | _ + 1, _, _, _, [], st => some st
  | fuel + 1, cfg, p, S, symbol :: rest, st =>
    if st.processingStopped then some st
    else
      match opApply fuel cfg (cfg.smallerDown p symbol)
          (biggerTuples cfg S symbol) st with
      | none => none
      | some st2 => foreachSymbols fuel cfg p S rest st2

/-- Embeds `DownwardInclusionFunctor::operator()` (lines 422-543): the
nullary case succeeds iff the right-hand tuple set is non-empty; otherwise
every left-hand tuple is processed in turn. -/
def opApply : Nat → DownCfg → List (List Nat) → List (List Nat) → DownSt →
    Option DownSt
  | 0, _, _, _, _ => none
  | fuel + 1, cfg, lhs, rhs, st =>
    match lhs with
    | [] => some st
    | t :: _ =>
      if t.length == 0 then
        if rhs.isEmpty then some (failProcessing st) else some st
      else
        if rhs.isEmpty then some (failProcessing st)
        else lhsLoop fuel cfg lhs rhs t.length st

/-- Embeds the `for (auto lhsTupleCont : lhs)` loop of `operator()` (lines
458-541): first search for a single covering bigger tuple, else run the
choice-function enumeration; a refutation leaves the loop immediately. -/
def lhsLoop : Nat → DownCfg → List (List Nat) → List (List Nat) → Nat →
    DownSt → Option DownSt
  | 0, _, _, _, _, _ => none
  | _ + 1, _, [], _, _, st => some st
  | fuel + 1, cfg, lhsTuple :: rest, rhs, arity, st =>
    match tryTuples fuel cfg lhsTuple rhs st with
    | none => none
    | some (valid, st2) =>
      if valid then lhsLoop fuel cfg rest rhs arity st2
      else
        match cfLoop fuel cfg lhsTuple rhs arity
            (CfGen.start rhs.length arity) st2 with
        | none => none
        | some (refuted, st3) =>
          if refuted then some st3
          else lhsLoop fuel cfg rest rhs arity st3

/-- Embeds the `for (auto rhsTupleCont : rhs)` search (lines 466-485) for
one bigger tuple covering the left tuple slot by slot. -/
def tryTuples : Nat → DownCfg → List Nat → List (List Nat) → DownSt →
    Option (Bool × DownSt)
  | 0, _, _, _, _ => none
  | _ + 1, _, _, [], st => some (false, st)
  | fuel + 1, cfg, lhsTuple, rhsTuple :: rest, st =>
    match trySlots fuel cfg (lhsTuple.zip rhsTuple) st with
    | none => none
    | some (valid, st2) =>
      if valid then some (true, st2)
      else tryTuples fuel cfg lhsTuple rest st2

/-- Embeds the inner `for (size_t i = 0; i < arity; ++i)` loop (lines
472-479): expand each slot against the singleton of the bigger tuple's
slot, failing at the first refused slot. -/
def trySlots : Nat → DownCfg → List (Nat × Nat) → DownSt →
    Option (Bool × DownSt)
  | 0, _, _, _ => none
  | _ + 1, _, [], st => some (true, st)
  | fuel + 1, cfg, (l, r) :: rest, st =>
    match expand fuel cfg st l [r] with
    | none => none
    | some (b, st2) =>
      if b then trySlots fuel cfg rest st2
      else some (false, st2)

/-- Embeds the choice-function enumeration (lines 497-540): for each
choice function, some tuple position must succeed, otherwise the functor
refutes and stops; the returned flag says whether a refutation happened. -/
def cfLoop : Nat → DownCfg → List Nat → List (List Nat) → Nat → CfGen →
    DownSt → Option (Bool × DownSt)
  | 0, _, _, _, _, _, _ => none
  | fuel + 1, cfg, lhsTuple, rhsVector, arity, g, st =>
    if g.isLast then some (false, st)
    else
      let r := g.getNext
      match posLoop fuel cfg lhsTuple rhsVector r.1 (List.range arity) st with
      | none => none
      | some (found, st2) =>
        if found then cfLoop fuel cfg lhsTuple rhsVector arity r.2 st2
        else some (true, failProcessing st2)

/-- Embeds the `for (size_t tuplePos = 0; …)` loop (lines 503-533):
positions whose collected right-hand set is empty are skipped; the first
successful expansion makes the choice function succeed. -/
def posLoop : Nat → DownCfg → List Nat → List (List Nat) → List Nat →
    List Nat → DownSt → Option (Bool × DownSt)
  | 0, _, _, _, _, _, _ => none
  | _ + 1, _, _, _, _, [], st => some (false, st)
  | fuel + 1, cfg, lhsTuple, rhsVector, cf, tuplePos :: rest, st =>
    let rhsSet := rhsSetForTuplePos rhsVector cf tuplePos
    if rhsSet.isEmpty then posLoop fuel cfg lhsTuple rhsVector cf rest st
    else
      match expand fuel cfg st (lhsTuple.getD tuplePos 0) rhsSet with
      | none => none
      | some (b, st2) =>
        if b then some (true, st2)
        else posLoop fuel cfg lhsTuple rhsVector cf rest st2

end


/-! ### Claims C3, C7, C10 — theorems about the downward functor -/

theorem isInWorkset_iff (cfg : DownCfg) (ws : List (Nat × StateSet))
    (p : Nat) (S : StateSet) :
    isInWorkset cfg ws p S = true ↔
      ∃ pr ∈ ws, cfg.preorder p pr.1 = true ∧
        pointwiseLift cfg.preorder S pr.2 = true := by
  simp [isInWorkset, setComparerSmaller, pointwiseLift, List.any_eq_true,
    Bool.and_eq_true, List.all_eq_true]

/-- An identity-preorder configuration over automata with no transitions,
used for concrete evaluations. -/
def dIdCfg : DownCfg :=
  { preorder := fun a b => a == b
    preorderSmaller := fun _ => []
    preorderBigger := fun _ => []
    symbols := []
    smallerDown := fun _ _ => []
    biggerDown := fun _ _ => [] }

/-- A functor state with empty caches and empty workset. -/
def dEmptySt : DownSt :=
  { processingStopped := false, inclusionHolds := true, childrenCache := [],
    workset := [], nonIncl := [] }

/-- Counterexample to claim C3 as stated: the workset holds `(0, [1])`,
the queried pair is `(0, [1,2])`; the claim's condition `p R p'` and
`S' ⊑ S` (every state of `S' = [1]` dominated inside `S = [1,2]`) holds
under the identity preorder, yet `isInWorkset` does not fire, because the
code tests the opposite direction `S ⊑ S'`. -/
theorem downWorksetFilter_counterexample :
    ((0, ([1] : StateSet)) ∈ [((0 : Nat), ([1] : StateSet))]) ∧
    dIdCfg.preorder 0 0 = true ∧
    pointwiseLift dIdCfg.preorder [1] [1, 2] = true ∧
    isInWorkset dIdCfg [(0, [1])] 0 [1, 2] = false := by decide

/-- Claim C3 (amended): `expand(p, S)` returns `true` immediately, with
the functor state untouched, whenever some pair `(p', S')` currently in
the workset satisfies `p R p'` and `S ⊑ S'` — the pointwise lift applied
with the new macro-state on the left, i.e. every state of the new `S` is
`R`-dominated by some state of the stored `S'`. -/
theorem downWorksetFilter_suppresses (fuel : Nat) (cfg : DownCfg)
    (st : DownSt) (p : Nat) (S : StateSet)
    (h : ∃ pr ∈ st.workset, cfg.preorder p pr.1 = true ∧
      pointwiseLift cfg.preorder S pr.2 = true) :
    expand (fuel + 1) cfg st p S = some (true, st) := by
  have hw : isInWorkset cfg st.workset p S = true :=
    (isInWorkset_iff cfg st.workset p S).2 h
  simp [expand, hw]

/-- Witness for the amended claim C3: the workset pair `(0, [1])`
suppresses the query `(0, [1])` under the identity preorder. -/
theorem downWorksetFilter_suppresses_witness :
    (∃ pr ∈ ({ dEmptySt with workset := [(0, [1])] } : DownSt).workset,
      dIdCfg.preorder 0 pr.1 = true ∧
      pointwiseLift dIdCfg.preorder [1] pr.2 = true) ∧
    expand 1 dIdCfg { dEmptySt with workset := [(0, [1])] } 0 [1] =
      some (true, { dEmptySt with workset := [(0, [1])] }) :=
  ⟨⟨(0, [1]), by decide, by decide, by decide⟩,
    downWorksetFilter_suppresses 0 dIdCfg _ 0 [1]
      ⟨(0, [1]), by decide, by decide, by decide⟩⟩

/-- Claim C7: when the small side's transition under a symbol is nullary,
the expansion step refutes exactly when the bigger side's tuple set for
that symbol is empty, and leaves the functor state unchanged otherwise. -/
theorem downNullaryTransition (fuel : Nat) (cfg : DownCfg) (st : DownSt)
    (t : List Nat) (lhsRest rhs : List (List Nat)) (ht : t.length = 0) :
    (rhs = [] → opApply (fuel + 1) cfg (t :: lhsRest) rhs st =
        some { st with inclusionHolds := false, processingStopped := true }) ∧
    (rhs ≠ [] → opApply (fuel + 1) cfg (t :: lhsRest) rhs st = some st) := by
  have ht0 : (t.length == 0) = true := by simp [ht]
  constructor
  · intro hr
    subst hr
    simp [opApply, ht0, failProcessing]
  · intro hr
    cases rhs with
    | nil => exact absurd rfl hr
    | cons r rest => simp [opApply, ht0]

/-- Witness for claim C7, at an empty and at a non-empty right-hand tuple
set. -/
theorem downNullaryTransition_witness :
    (([] : List Nat).length = 0 ∧
      (([] : List (List Nat)) = [] →
        opApply 1 dIdCfg [[]] [] dEmptySt =
          some { dEmptySt with inclusionHolds := false, processingStopped := true }) ∧
      (([] : List (List Nat)) ≠ [] →
        opApply 1 dIdCfg [[]] [] dEmptySt = some dEmptySt)) ∧
    (([] : List Nat).length = 0 ∧
      (([[]] : List (List Nat)) = [] →
        opApply 1 dIdCfg [[]] [[]] dEmptySt =
          some { dEmptySt with inclusionHolds := false, processingStopped := true }) ∧
      (([[]] : List (List Nat)) ≠ [] →
        opApply 1 dIdCfg [[]] [[]] dEmptySt = some dEmptySt)) :=
  ⟨⟨rfl, downNullaryTransition 0 dIdCfg dEmptySt [] [] [] rfl⟩,
    ⟨rfl, downNullaryTransition 0 dIdCfg dEmptySt [] [] [[]] rfl⟩⟩

theorem erase_append_self {α : Type} [DecidableEq α] (l : List α) (a : α) :
    ((l ++ [a]).erase a).Perm l := by
  have h1 : (l ++ [a]).Perm (a :: l) := List.perm_append_singleton a l
  have h2 := h1.erase a
  rw [List.erase_cons_head] at h2
  exact h2

theorem erase_instance_eq {α : Type} [BEq α] [LawfulBEq α] [DecidableEq α]
    (l : List α) (a : α) :
    l.erase a = @List.erase α instBEqOfDecidableEq l a := by
  induction l with
  | nil => rfl
  | cons x xs ih =>
    by_cases hx : x = a
    · subst hx
      simp [List.erase_cons]
    · simp [List.erase_cons, hx, ih]
/-- Mutual workset-preservation invariant: every completed call of the
downward machinery returns the shared workset as the same multiset it
received.  Proved by induction on the fuel; each function consumes one
unit per call, so all inner calls fall under the induction hypothesis. -/
theorem downWorksetInvariant (fuel : Nat) :
    (∀ cfg st p S b st2, expand fuel cfg st p S = some (b, st2) →
        st2.workset.Perm st.workset) ∧
    (∀ cfg p S st st2, foreachDown fuel cfg p S st = some st2 →
        st2.workset.Perm st.workset) ∧
    (∀ cfg p S syms st st2, foreachSymbols fuel cfg p S syms st = some st2 →
        st2.workset.Perm st.workset) ∧
    (∀ cfg lhs rhs st st2, opApply fuel cfg lhs rhs st = some st2 →
        st2.workset.Perm st.workset) ∧
    (∀ cfg lhs rhs ar st st2, lhsLoop fuel cfg lhs rhs ar st = some st2 →
        st2.workset.Perm st.workset) ∧
    (∀ cfg lt rhs st v st2, tryTuples fuel cfg lt rhs st = some (v, st2) →
        st2.workset.Perm st.workset) ∧
    (∀ cfg pairs st v st2, trySlots fuel cfg pairs st = some (v, st2) →
        st2.workset.Perm st.workset) ∧
    (∀ cfg lt rv ar g st v st2, cfLoop fuel cfg lt rv ar g st = some (v, st2) →
        st2.workset.Perm st.workset) ∧
    (∀ cfg lt rv cf ps st v st2, posLoop fuel cfg lt rv cf ps st = some (v, st2) →
        st2.workset.Perm st.workset) := by
  induction fuel with
  | zero =>
    refine ⟨?_, ?_, ?_, ?_, ?_, ?_, ?_, ?_, ?_⟩
    · intro _ _ _ _ _ _ h; simp [expand] at h
    · intro _ _ _ _ _ h; simp [foreachDown] at h
    · intro _ _ _ _ _ _ h; simp [foreachSymbols] at h
    · intro _ _ _ _ _ h; simp [opApply] at h
    · intro _ _ _ _ _ _ h; simp [lhsLoop] at h
    · intro _ _ _ _ _ _ h; simp [tryTuples] at h
    · intro _ _ _ _ _ h; simp [trySlots] at h
    · intro _ _ _ _ _ _ _ _ h; simp [cfLoop] at h
    · intro _ _ _ _ _ _ _ _ h; simp [posLoop] at h
  | succ n ih =>
    obtain ⟨ihExpand, ihForeach, ihSymbols, ihOp, ihLhs, ihTry, ihSlots,
      ihCf, ihPos⟩ := ih
    refine ⟨?_, ?_, ?_, ?_, ?_, ?_, ?_, ?_, ?_⟩
    · -- expand
      intro cfg st p S b st2 h
      simp only [expand] at h
      by_cases h1 : isInWorkset cfg st.workset p S = true
      · rw [if_pos h1] at h
        simp only [Option.some.injEq, Prod.mk.injEq] at h
        obtain ⟨-, hst⟩ := h
        subst hst
        exact List.Perm.refl _
      rw [if_neg h1] at h
      by_cases h2 : isNoninclusionImplied cfg st.nonIncl p S = true
      · rw [if_pos h2] at h
        simp only [Option.some.injEq, Prod.mk.injEq] at h
        obtain ⟨-, hst⟩ := h
        subst hst
        exact List.Perm.refl _
      rw [if_neg h2] at h
      by_cases h3 : isImpliedByChildren cfg st.childrenCache p S = true
      · rw [if_pos h3] at h
        simp only [Option.some.injEq, Prod.mk.injEq] at h
        obtain ⟨-, hst⟩ := h
        subst hst
        exact List.Perm.refl _
      rw [if_neg h3] at h
      by_cases h4 : isImpliedByPreorder cfg p S = true
      · rw [if_pos h4] at h
        simp only [Option.some.injEq, Prod.mk.injEq] at h
        obtain ⟨-, hst⟩ := h
        subst hst
        exact List.Perm.refl _
      rw [if_neg h4] at h
      cases hfe : foreachDown n cfg p S
          { processingStopped := false, inclusionHolds := true, childrenCache := [],
            workset := st.workset ++ [(p, S)], nonIncl := st.nonIncl } with
      | none => rw [hfe] at h; simp at h
      | some inner =>
        rw [hfe] at h
        have hperm : inner.workset.Perm (st.workset ++ [(p, S)]) :=
          ihForeach _ _ _ _ _ hfe
        have hres : ((inner.workset.erase (p, S))).Perm st.workset := by
          rw [erase_instance_eq]
          exact (hperm.erase (p, S)).trans (erase_append_self st.workset (p, S))
        by_cases h5 : inner.inclusionHolds = true
        · simp only [h5, if_true, Option.some.injEq, Prod.mk.injEq] at h
          obtain ⟨-, hst⟩ := h
          subst hst
          exact hres
        · simp only [h5, if_false, Bool.false_eq_true, Option.some.injEq,
            Prod.mk.injEq] at h
          obtain ⟨-, hst⟩ := h
          subst hst
          exact hres
    · -- foreachDown
      intro cfg p S st st2 h
      simp only [foreachDown] at h
      exact ihSymbols _ _ _ _ _ _ h
    · -- foreachSymbols
      intro cfg p S syms st st2 h
      cases syms with
      | nil =>
        simp only [foreachSymbols, Option.some.injEq] at h
        subst h
        exact List.Perm.refl _
      | cons symbol rest =>
        simp only [foreachSymbols] at h
        by_cases h1 : st.processingStopped = true
        · rw [if_pos h1] at h
          simp only [Option.some.injEq] at h
          subst h
          exact List.Perm.refl _
        rw [if_neg h1] at h
        cases hop : opApply n cfg (cfg.smallerDown p symbol)
            (biggerTuples cfg S symbol) st with
        | none => rw [hop] at h; simp at h
        | some stMid =>
          rw [hop] at h
          exact (ihSymbols _ _ _ _ _ _ h).trans (ihOp _ _ _ _ _ hop)
    · -- opApply
      intro cfg lhs rhs st st2 h
      cases lhs with
      | nil =>
        simp only [opApply, Option.some.injEq] at h
        subst h
        exact List.Perm.refl _
      | cons t rest =>
        simp only [opApply] at h
        by_cases h1 : (t.length == 0) = true
        · rw [if_pos h1] at h
          by_cases h2 : rhs.isEmpty = true
          · rw [if_pos h2] at h
            simp only [Option.some.injEq] at h
            subst h
            exact List.Perm.refl _
          · rw [if_neg h2] at h
            simp only [Option.some.injEq] at h
            subst h
            exact List.Perm.refl _
        rw [if_neg h1] at h
        by_cases h2 : rhs.isEmpty = true
        · rw [if_pos h2] at h
          simp only [Option.some.injEq] at h
          subst h
          exact List.Perm.refl _
        rw [if_neg h2] at h
        exact ihLhs _ _ _ _ _ _ h
    · -- lhsLoop
      intro cfg lhs rhs ar st st2 h
      cases lhs with
      | nil =>
        simp only [lhsLoop, Option.some.injEq] at h
        subst h
        exact List.Perm.refl _
      | cons lhsTuple rest =>
        simp only [lhsLoop] at h
        cases htt : tryTuples n cfg lhsTuple rhs st with
        | none => rw [htt] at h; simp at h
        | some pr =>
          obtain ⟨valid, stMid⟩ := pr
          rw [htt] at h
          have hmid := ihTry _ _ _ _ _ _ htt
          by_cases hv : valid = true
          · simp only [hv, if_true] at h
            exact (ihLhs _ _ _ _ _ _ h).trans hmid
          · simp only [hv, if_false, Bool.false_eq_true] at h
            cases hcf : cfLoop n cfg lhsTuple rhs ar
                (CfGen.start rhs.length ar) stMid with
            | none => rw [hcf] at h; simp at h
            | some pr2 =>
              obtain ⟨refuted, st3⟩ := pr2
              rw [hcf] at h
              have h3 := ihCf _ _ _ _ _ _ _ _ hcf
              by_cases hr : refuted = true
              · simp only [hr, if_true, Option.some.injEq] at h
                subst h
                exact h3.trans hmid
              · simp only [hr, if_false, Bool.false_eq_true] at h
                exact ((ihLhs _ _ _ _ _ _ h).trans h3).trans hmid
    · -- tryTuples
      intro cfg lt rhs st v st2 h
      cases rhs with
      | nil =>
        simp only [tryTuples, Option.some.injEq, Prod.mk.injEq] at h
        obtain ⟨-, hst⟩ := h
        subst hst
        exact List.Perm.refl _
      | cons rhsTuple rest =>
        simp only [tryTuples] at h
        cases hts : trySlots n cfg (lt.zip rhsTuple) st with
        | none => rw [hts] at h; simp at h
        | some pr =>
          obtain ⟨valid, stMid⟩ := pr
          rw [hts] at h
          have hmid := ihSlots _ _ _ _ _ hts
          by_cases hv : valid = true
          · simp only [hv, if_true, Option.some.injEq, Prod.mk.injEq] at h
            obtain ⟨-, hst⟩ := h
            subst hst
            exact hmid
          · simp only [hv, if_false, Bool.false_eq_true] at h
            exact (ihTry _ _ _ _ _ _ h).trans hmid
    · -- trySlots
      intro cfg pairs st v st2 h
      cases pairs with
      | nil =>
        simp only [trySlots, Option.some.injEq, Prod.mk.injEq] at h
        obtain ⟨-, hst⟩ := h
        subst hst
        exact List.Perm.refl _
      | cons pr rest =>
        obtain ⟨l, r⟩ := pr
        simp only [trySlots] at h
        cases hex : expand n cfg st l [r] with
        | none => rw [hex] at h; simp at h
        | some pr2 =>
          obtain ⟨bb, stMid⟩ := pr2
          rw [hex] at h
          have hmid := ihExpand _ _ _ _ _ _ hex
          by_cases hb : bb = true
          · simp only [hb, if_true] at h
            exact (ihSlots _ _ _ _ _ h).trans hmid
          · simp only [hb, if_false, Bool.false_eq_true, Option.some.injEq,
              Prod.mk.injEq] at h
            obtain ⟨-, hst⟩ := h
            subst hst
            exact hmid
    · -- cfLoop
      intro cfg lt rv ar g st v st2 h
      simp only [cfLoop] at h
      by_cases hl : g.isLast = true
      · rw [if_pos hl] at h
        simp only [Option.some.injEq, Prod.mk.injEq] at h
        obtain ⟨-, hst⟩ := h
        subst hst
        exact List.Perm.refl _
      rw [if_neg hl] at h
      cases hpl : posLoop n cfg lt rv (g.getNext).1 (List.range ar) st with
      | none => rw [hpl] at h; simp at h
      | some pr =>
        obtain ⟨found, stMid⟩ := pr
        rw [hpl] at h
        have hmid := ihPos _ _ _ _ _ _ _ _ hpl
        by_cases hf : found = true
        · simp only [hf, if_true] at h
          exact (ihCf _ _ _ _ _ _ _ _ h).trans hmid
        · simp only [hf, if_false, Bool.false_eq_true, Option.some.injEq,
            Prod.mk.injEq] at h
          obtain ⟨-, hst⟩ := h
          subst hst
          exact hmid
    · -- posLoop
      intro cfg lt rv cf ps st v st2 h
      cases ps with
      | nil =>
        simp only [posLoop, Option.some.injEq, Prod.mk.injEq] at h
        obtain ⟨-, hst⟩ := h
        subst hst
        exact List.Perm.refl _
      | cons tuplePos rest =>
        simp only [posLoop] at h
        by_cases he : (rhsSetForTuplePos rv cf tuplePos).isEmpty = true
        · rw [if_pos he] at h
          exact ihPos _ _ _ _ _ _ _ _ h
        rw [if_neg he] at h
        cases hex : expand n cfg st (lt.getD tuplePos 0)
            (rhsSetForTuplePos rv cf tuplePos) with
        | none => rw [hex] at h; simp at h
        | some pr2 =>
          obtain ⟨bb, stMid⟩ := pr2
          rw [hex] at h
          have hmid := ihExpand _ _ _ _ _ _ hex
          by_cases hb : bb = true
          · simp only [hb, if_true, Option.some.injEq, Prod.mk.injEq] at h
            obtain ⟨-, hst⟩ := h
            subst hst
            exact hmid
          · simp only [hb, if_false, Bool.false_eq_true] at h
            exact (ihPos _ _ _ _ _ _ _ _ h).trans hmid

/-- Claim C10: every completed `expand(p, S)` call leaves the shared
workset multimap equal (as a multiset of pairs) to its value before the
call: when no filter fires the pair is inserted before the recursive
exploration and exactly one such entry is removed before returning, and
when a filter fires the workset is not touched at all. -/
theorem expandPreservesWorkset (fuel : Nat) (cfg : DownCfg) (st : DownSt)
    (p : Nat) (S : StateSet) (b : Bool) (st2 : DownSt)
    (h : expand fuel cfg st p S = some (b, st2)) :
    st2.workset.Perm st.workset :=
  (downWorksetInvariant fuel).1 cfg st p S b st2 h

/-- The state produced by the witness run of `expand` below. -/
def dStAfter : DownSt :=
  { processingStopped := false, inclusionHolds := true,
    childrenCache := [(0, [5])], workset := [], nonIncl := [] }

/-- Witness for claim C10: a complete concrete `expand` run whose final
workset is a permutation of (here: equal to) the initial one. -/
theorem expandPreservesWorkset_witness :
    expand 3 dIdCfg dEmptySt 0 [5] = some (true, dStAfter) ∧
    dStAfter.workset.Perm dEmptySt.workset :=
  ⟨by
      simp [expand, foreachDown, foreachSymbols, isInWorkset, isNoninclusionImplied,
        isImpliedByChildren, isImpliedByPreorder, ac2contains, ac2insert, ac2refine,
        setComparerSmaller, setComparerBigger, memNat, dIdCfg, dEmptySt, dStAfter,
        List.erase],
    expandPreservesWorkset 3 dIdCfg dEmptySt 0 [5] true dStAfter (by
      simp [expand, foreachDown, foreachSymbols, isInWorkset, isNoninclusionImplied,
        isImpliedByChildren, isImpliedByPreorder, ac2contains, ac2insert, ac2refine,
        setComparerSmaller, setComparerBigger, memNat, dIdCfg, dEmptySt, dStAfter,
        List.erase])⟩

/-!
## SharedCounter (`src/explicit_lts_sim.cc`, lines 46-206)

Counter rows live in a shared arena; a row is the vector
`[refCount, master, values…]` and each block's counter maps labels to
arena ids.  The `CachingAllocator` recycling is modelled by always
allocating a fresh arena slot: every C++ allocation fully overwrites the
recycled vector before use, so fresh allocation is observationally
equivalent; `reclaim` is a no-op on the arena.
-/

/-- Embeds `SharedCounter::incr(label, state)` (lines 85-113): bump master
and the state's slot on the private row (the source asserts
`refCount == 1` there), or allocate a fresh row `[1, 1, 0, …]` with the
state's slot set to one. -/
def counterIncr (key : List Nat) (states : Nat) (rangev : List Nat)
    (arena : List (List Nat)) (data : List (Option Nat))
    (label state : Nat) : List (List Nat) × List (Option Nat) :=
  let slot := 2 + key.getD (label * states + state) 0
  match data.getD label none with
  | some rid =>
    let row := arena.getD rid []
    let row1 := row.set 1 (row.getD 1 0 + 1)
    let row2 := row1.set slot (row1.getD slot 0 + 1)
    (arena.set rid row2, data)
  | none =>
    let row := ((List.replicate (2 + rangev.getD label 0) 0).set 0 1).set 1 1
    let row2 := row.set slot 1
    (arena ++ [row2], data.set label (some arena.length))

/-- Embeds `SharedCounter::decr(label, state)` (lines 115-166).  If the
row's master is one, the caller drops its reference (the source does this
through the side effect of `assert(!(row = nullptr))`), reclaiming the row
when it was private and decrementing its refcount when shared.  Otherwise
a shared row (refcount above one) is first cloned copy-on-write — the old
row only loses one refcount — and master and the state's slot are
decremented on the caller's current row, returning the new slot value. -/
def counterDecr (key : List Nat) (states : Nat)
    (arena : List (List Nat)) (data : List (Option Nat))
    (label state : Nat) :
    Nat × List (List Nat) × List (Option Nat) :=
  match data.getD label none with
  | none => (0, arena, data)
  | some rid =>
    let row := arena.getD rid []
    let slot := 2 + key.getD (label * states + state) 0
    if row.getD 1 0 == 1 then
      if row.getD 0 0 == 1 then
        (0, arena, data.set label none)
      else
        (0, arena.set rid (row.set 0 (row.getD 0 0 - 1)), data.set label none)
    else
      let cow := row.getD 0 0 > 1
      let arena1 := if cow then arena.set rid (row.set 0 (row.getD 0 0 - 1))
                    else arena
      let rid1 := if cow then arena1.length else rid
      let row1 := if cow then row.set 0 1 else row
      let arena2 := if cow then arena1 ++ [row1] else arena1
      let data1 := if cow then data.set label (some rid1) else data
      let row2 := row1.set 1 (row1.getD 1 0 - 1)
      let row3 := row2.set slot (row2.getD slot 0 - 1)
      (row2.getD slot 0 - 1, arena2.set rid1 row3, data1)

/-- Embeds `SharedCounter::copyRow(label, cnt)` (lines 168-179): the
destination adopts the source's row for the label, bumping the row's
refcount. -/
def counterCopyRow (arena : List (List Nat))
    (dstData srcData : List (Option Nat)) (label : Nat) :
    List (List Nat) × List (Option Nat) :=
  match srcData.getD label none with
  | none => (arena, dstData)
  | some rid =>
    let row := arena.getD rid []
    (arena.set rid (row.set 0 (row.getD 0 0 + 1)), dstData.set label (some rid))

/-- Claim C9: when the row referenced for `label` is shared
(`refCount ≥ 2`), `decr` changes that shared vector only by decrementing
its refcount field: its master field and all per-slot counts are
unchanged (the decrements land on a freshly cloned row, or the caller's
reference is merely dropped), and every other existing arena row is
untouched, so blocks sharing the original row observe unchanged counter
values. -/
theorem sharedCounterDecrFrame (key : List Nat) (states : Nat)
    (arena : List (List Nat)) (data : List (Option Nat))
    (label state rid : Nat) (row : List Nat)
    (hdata : data.getD label none = some rid)
    (hrow : arena.getD rid [] = row)
    (hrc : 2 ≤ row.getD 0 0) :
    ((counterDecr key states arena data label state).2.1.getD rid [] =
        row.set 0 (row.getD 0 0 - 1)) ∧
    (∀ r, r < arena.length → r ≠ rid →
      (counterDecr key states arena data label state).2.1.getD r [] =
        arena.getD r []) ∧
    (∀ j, 1 ≤ j →
      ((counterDecr key states arena data label state).2.1.getD rid []).getD j 0 =
        row.getD j 0) := by
  have hne : row ≠ [] := by
    intro hempty
    rw [hempty] at hrc
    simp [List.getD] at hrc
  have hlt : rid < arena.length := by
    by_contra hge
    push_neg at hge
    rw [List.getD_eq_default _ _ hge] at hrow
    exact hne hrow.symm
  have hrc1 : (row.getD 0 0 == 1) = false := by
    simp only [beq_eq_false_iff_ne, ne_eq]
    omega
  have hset : ∀ x : List Nat, (arena.set rid x).getD rid [] = x := by
    intro x
    rw [List.getD_eq_getElem?_getD, List.getElem?_set_self (by simpa using hlt)]
    rfl
  have hsetOther : ∀ (x : List Nat) (r : Nat), r ≠ rid →
      (arena.set rid x).getD r [] = arena.getD r [] := by
    intro x r hr
    rw [List.getD_eq_getElem?_getD, List.getElem?_set_ne (by omega),
      List.getD_eq_getElem?_getD]
  have hmaster : ∀ j, 1 ≤ j → (row.set 0 (row.getD 0 0 - 1)).getD j 0 = row.getD j 0 := by
    intro j hj
    rw [List.getD_eq_getElem?_getD, List.getElem?_set_ne (by omega),
      List.getD_eq_getElem?_getD]
  simp only [counterDecr, hdata, hrow, hrc1]
  by_cases hm : (row.getD 1 0 == 1) = true
  · simp only [hm, if_true, Bool.false_eq_true, if_false]
    exact ⟨hset _, fun r _ hr => hsetOther _ r hr, fun j hj => by
      rw [hset]; exact hmaster j hj⟩
  · simp only [hm, Bool.false_eq_true, if_false]
    have hcow : row.getD 0 0 > 1 := by omega
    simp only [hcow, if_true]
    have hlen : (arena.set rid (row.set 0 (row.getD 0 0 - 1))).length = arena.length :=
      List.length_set arena rid _
    have hridne : arena.length ≠ rid := by omega
    have hc1 : ((arena.set rid (row.set 0 (row.getD 0 0 - 1)) ++ [row.set 0 1]).set
          (arena.set rid (row.set 0 (row.getD 0 0 - 1))).length
          (((row.set 0 1).set 1 ((row.set 0 1).getD 1 0 - 1)).set
            (2 + key.getD (label * states + state) 0)
            (((row.set 0 1).set 1 ((row.set 0 1).getD 1 0 - 1)).getD
              (2 + key.getD (label * states + state) 0) 0 - 1))).getD rid [] =
        row.set 0 (row.getD 0 0 - 1) := by
      rw [List.getD_eq_getElem?_getD, List.getElem?_set_ne (by omega),
        List.getElem?_append_left (by omega), ← List.getD_eq_getElem?_getD]
      exact hset _
    refine ⟨hc1, ?_, ?_⟩
    · intro r hr hrne
      rw [List.getD_eq_getElem?_getD, List.getElem?_set_ne (by omega),
        List.getElem?_append_left (by omega), ← List.getD_eq_getElem?_getD]
      exact hsetOther _ r hrne
    · intro j hj
      rw [hc1]
      exact hmaster j hj

/-- Witness for claim C9: a shared row `[2, 2, 1, 1]` (refcount 2,
master 2, two slots) loses exactly one refcount; the clone receives the
decrements. -/
theorem sharedCounterDecrFrame_witness :
    (([some 0] : List (Option Nat)).getD 0 none = some 0 ∧
      ([[2, 2, 1, 1]] : List (List Nat)).getD 0 [] = [2, 2, 1, 1] ∧
      2 ≤ ([2, 2, 1, 1] : List Nat).getD 0 0) ∧
    (((counterDecr [0] 1 [[2, 2, 1, 1]] [some 0] 0 0).2.1.getD 0 [] =
        ([2, 2, 1, 1] : List Nat).set 0 (([2, 2, 1, 1] : List Nat).getD 0 0 - 1)) ∧
      (∀ r, r < ([[2, 2, 1, 1]] : List (List Nat)).length → r ≠ 0 →
        (counterDecr [0] 1 [[2, 2, 1, 1]] [some 0] 0 0).2.1.getD r [] =
          ([[2, 2, 1, 1]] : List (List Nat)).getD r []) ∧
      (∀ j, 1 ≤ j →
        ((counterDecr [0] 1 [[2, 2, 1, 1]] [some 0] 0 0).2.1.getD 0 []).getD j 0 =
          ([2, 2, 1, 1] : List Nat).getD j 0)) :=
  ⟨⟨rfl, rfl, by decide⟩,
    sharedCounterDecrFrame [0] 1 [[2, 2, 1, 1]] [some 0] 0 0 0 [2, 2, 1, 1]
      rfl rfl (by decide)⟩

/-!
## Upward inclusion checker (`src/explicit_tree_incl_up.cc`)

The entry point `ExplicitUpwardInclusion::checkInternal` is embedded as a
fuel-indexed function on the same inputs (the symbol-indexed leaf maps,
the child-indexed transition maps, the final-state sets, and the preorder
index views `ind` / `inv`).  Pointer-level devices of the C++ are replaced
by values: the hash-consed `BiggerType` pointers become the sorted
macro-state lists themselves (the cache makes pointer equality coincide
with value equality), the two memoization caches compute their underlying
pure functions, and the `std::set` ordering's pointer tie-break becomes a
lexicographic tie-break on the macro-state (any deterministic total order;
the spec itself notes the exact order is not claimed).  Counterexample
traces (`AntichainElem::trace_`) do not influence the verdict and are not
modelled.
-/

/-- A transition `(symbol, children, parent)` of the explicit automaton. -/
structure UpTransition where
  symbol : Nat
  children : List Nat
  state : Nat
deriving Repr, DecidableEq

/-- The inputs of `checkInternal` (lines 250-259). -/
structure UpCfg where
  smallerLeaves : List (List UpTransition)
  smallerIndex : List (List (List (List UpTransition)))
  smallerFinals : List Nat
  biggerLeaves : List (List UpTransition)
  biggerIndex : List (List (List (List UpTransition)))
  biggerFinals : List Nat
  ind : List (List Nat)
  inv : List (List Nat)
deriving Repr, DecidableEq

def descSizes : String := "Inclusion refuted! Reason: leaves set sizes incompatible"
def descNotCovered : String := "Inclusion refuted! Reason: leaves not covered"
def descSmallerAccepts : String := "Inclusion refuted! Reason: smaller accepts, bigger does not"
def descProved : String := "Inclusion proved!"

/-- Embeds `noncachedLte` (lines 261-277): `x ⊑ y` iff every state of `x`
has an `ind`-successor inside `y`.  The `lteCache` memoizes this pure
function, so the embedding computes it directly. -/
def upLte (ind : List (List Nat)) (x y : List Nat) : Bool :=
  x.all (fun s1 => checkIntersection (ind.getD s1 []) y)

/-- The reversed comparison `gte` (line 289). -/
def upGte (ind : List (List Nat)) (x y : List Nat) : Bool :=
  upLte ind y x

/-- Embeds `noncachedEvalTransitions` (lines 295-330): union of the
bigger automaton's transitions with a child from `states` at slot `i`
under `symbol`; the `unordered_set` of transition pointers becomes a
deduplicated list. -/
def evalTransitions (biggerIndex : List (List (List (List UpTransition))))
    (symbol i : Nat) (states : List Nat) : List UpTransition :=
  let indexedTransitionList := (biggerIndex.getD symbol []).getD i []
  ((states.map (fun state => indexedTransitionList.getD state [])).flatten).dedup

/-- Embeds `intersectionByLookup` (lines 114-124): keep the transitions of
`d` present in `s`. -/
def intersectionByLookup (d s : List UpTransition) : List UpTransition :=
  d.filter (fun t => s.contains t)

/-- Modelled from the spec: `Antichain1C.contains(S)` — non-empty
intersection of the stored flat set with `S` (the container header is not
among the sources). -/
def ac1contains (data S : List Nat) : Bool :=
  data.any (fun x => memNat x S)

/-- Modelled from the spec: `Antichain1C.refine(S)` removes every stored
state lying in `S`. -/
def ac1refine (data S : List Nat) : List Nat :=
  data.filter (fun x => !(memNat x S))

/-- Modelled from the spec: `Antichain1C.insert(s)`. -/
def ac1insert (data : List Nat) (s : Nat) : List Nat :=
  data ++ [s]

/-- One step of the preorder-maximal filter applied to a parent state
(lines 377-394 of the leaf seeding and 500-519 of the inductive step):
skip when `post` already intersects `ind[state]`, else refine away
`inv[state]` and insert, accumulating acceptance of admitted states. -/
def postFoldStep (ind inv : List (List Nat)) (finals : List Nat)
    (acc : List Nat × Bool) (state : Nat) : List Nat × Bool :=
  if ac1contains acc.1 (ind.getD state []) then acc
  else (ac1insert (ac1refine acc.1 (inv.getD state [])) state,
    acc.2 || memNat state finals)

/-- The whole post fold over a list of bigger parent states, returning the
post macro-state and the `isAccepting` flag. -/
def postFold (ind inv : List (List Nat)) (finals : List Nat)
    (statesList : List Nat) : List Nat × Bool :=
  statesList.foldl (postFoldStep ind inv finals) ([], false)

/-- Specification-side companion of `postFold`: the subsequence of parent
states actually admitted into the post computation (those that pass the
domination filter), with the same evolving `post`. -/
def admittedStates (ind inv : List (List Nat)) : List Nat → List Nat → List Nat
  | _, [] => []
  | post, s :: rest =>
    if ac1contains post (ind.getD s []) then admittedStates ind inv post rest
    else s :: admittedStates ind inv (ac1insert (ac1refine post (inv.getD s [])) s) rest

/-- Embeds the refutation test of the inductive step (lines 521-528):
refute iff the post macro-state is empty, or no admitted bigger parent is
final while the smaller transition's parent is final. -/
def stepRefutes (ind inv : List (List Nat)) (biggerFinals : List Nat)
    (biggerParents : List Nat) (smallerFinal : Bool) : Bool :=
  let pf := postFold ind inv biggerFinals biggerParents
  pf.1.isEmpty || (!pf.2 && smallerFinal)

/-- Deterministic stand-in for the pointer tie-break of
`AntichainElem::less` (lines 78-90): lexicographic order on the
macro-state list. -/
def listLexLt : List Nat → List Nat → Bool
  | [], [] => false
  | [], _ :: _ => true
  | _ :: _, [] => false
  | x :: xs, y :: ys =>
    if x < y then true else if y < x then false else listLexLt xs ys

/-- Embeds `AntichainElem::less` (lines 78-90): order by macro-state
size, then by smaller state, then by the tie-break. -/
def elemLess (a b : Nat × List Nat) : Bool :=
  if a.2.length < b.2.length then true
  else if b.2.length < a.2.length then false
  else if a.1 < b.1 then true
  else if b.1 < a.1 then false
  else listLexLt a.2 b.2

/-- Insertion into the ordered set `next` (`std::set` keeps one copy). -/
def osInsert (l : List (Nat × List Nat)) (x : Nat × List Nat) :
    List (Nat × List Nat) :=
  if l.contains x then l else l ++ [x]

/-- Erasure from the ordered set `next` (used by the `Eraser` callback,
lines 128-140, and by the pop). -/
def osErase (l : List (Nat × List Nat)) (x : Nat × List Nat) :
    List (Nat × List Nat) :=
  l.filter (fun y => y ≠ x)

/-- The minimal element of `next` under `elemLess` — `*next.begin()`. -/
def osMin (l : List (Nat × List Nat)) : Option (Nat × List Nat) :=
  l.foldl (fun acc x =>
    match acc with
    | none => some x
    | some m => if elemLess x m then some x else some m) none

/-- The pairs `ac2refine` would drop — fed to the `Eraser` callback. -/
def ac2removedBy (data : List (Nat × StateSet)) (keys : List Nat)
    (v : StateSet) (cmp : StateSet → StateSet → Bool) :
    List (Nat × StateSet) :=
  data.filter (fun kv => memNat kv.1 keys && cmp v kv.2)

/-- The antichain state of the upward run: `processed` and the ordered
pending set `next` (`temporary` is local to one transition step). -/
structure UpSt where
  processed : List (Nat × StateSet)
  next : List (Nat × StateSet)
deriving Repr, DecidableEq

/-- Embeds the inner loop over the smaller automaton's leaf transitions
for one symbol (lines 402-434). -/
def leafSmallerLoop (cfg : UpCfg) (isAccepting : Bool) (tmp : List Nat) :
    List UpTransition → UpSt → Except String UpSt
  | [], st => .ok st
  | t :: rest, st =>
    if !isAccepting && memNat t.state cfg.smallerFinals then
      .error descNotCovered
    else if checkIntersection (cfg.ind.getD t.state []) tmp then
      leafSmallerLoop cfg isAccepting tmp rest st
    else if ac2contains st.processed (cfg.ind.getD t.state []) tmp (upLte cfg.ind) then
      leafSmallerLoop cfg isAccepting tmp rest st
    else
      let removed := ac2removedBy st.processed (cfg.inv.getD t.state []) tmp (upGte cfg.ind)
      let processed2 :=
        ac2insert (ac2refine st.processed (cfg.inv.getD t.state []) tmp (upGte cfg.ind))
          t.state tmp
      let next2 := osInsert (removed.foldl osErase st.next) (t.state, tmp)
      leafSmallerLoop cfg isAccepting tmp rest { processed := processed2, next := next2 }

/-- Embeds the per-symbol leaf seeding (lines 372-435): compute the
preorder-maximal post of the bigger automaton's leaf transitions, then
process the smaller automaton's leaf transitions. -/
def leafSymbolStep (cfg : UpCfg) (symbol : Nat) (st : UpSt) :
    Except String UpSt :=
  let pf := postFold cfg.ind cfg.inv cfg.biggerFinals
    ((cfg.biggerLeaves.getD symbol []).map (fun t => t.state))
  leafSmallerLoop cfg pf.2 (sortNat pf.1) (cfg.smallerLeaves.getD symbol []) st

/-- The loop over leaf symbols `0 … smallerLeaves.size() - 1`. -/
def leafSymbols (cfg : UpCfg) : List Nat → UpSt → Except String UpSt
  | [], st => .ok st
  | s :: rest, st =>
    match leafSymbolStep cfg s st with
    | .error d => .error d
    | .ok st2 => leafSymbols cfg rest st2

/-- Embeds the whole leaf phase, `Post(∅)` (lines 363-435), including the
size compatibility check. -/
def leafPhase (cfg : UpCfg) : Except String UpSt :=
  if cfg.biggerLeaves.length < cfg.smallerLeaves.length then .error descSizes
  else leafSymbols cfg (List.range cfg.smallerLeaves.length)
    { processed := [], next := [] }

/-- Embeds `ChoiceVector::build` (lines 194-222): one candidate list per
child slot — the fixed macro-state `Q` at slot `j`, `processed.lookup`
elsewhere; fails when some lookup is empty. -/
def choiceLists (processed : List (Nat × StateSet)) (Q : StateSet)
    (children : List Nat) (j : Nat) : Option (List (List StateSet)) :=
  let ls := children.mapIdx (fun i c => if i == j then [Q] else ac2lookup processed c)
  if ls.any (fun l => l.isEmpty) then none else some ls

/-- The full enumeration of the choice vector (the `do … while (next())`
loop, lines 473-554), slot 0 varying fastest. -/
def choiceProduct : List (List StateSet) → List (List StateSet)
  | [] => [[]]
  | l :: ls => ((choiceProduct ls).map (fun rest => l.map (fun x => x :: rest))).flatten

/-- The intersection fold over the remaining slots (lines 487-498). -/
def evalChoiceAux (cfg : UpCfg) (symbol : Nat) :
    Nat → List UpTransition → List StateSet → List UpTransition
  | _, acc, [] => acc
  | k, acc, c :: cs =>
    evalChoiceAux cfg symbol (k + 1)
      (intersectionByLookup acc (evalTransitions cfg.biggerIndex symbol k c)) cs

/-- The bigger transitions matching one choice (lines 477-498): the
slot-0 evaluation intersected with the evaluation of every further slot. -/
def evalChoice (cfg : UpCfg) (symbol : Nat) (choice : List StateSet) :
    List UpTransition :=
  match choice with
  | [] => []
  | c0 :: crest =>
    evalChoiceAux cfg symbol 1 (evalTransitions cfg.biggerIndex symbol 0 c0) crest

/-- Embeds the per-choice body (lines 475-553): build the post
macro-state, refute if it is empty or unaccepting against a final smaller
parent, otherwise update the `temporary` antichain. -/
def choicesLoop (cfg : UpCfg) (symbol smallerState : Nat) :
    List (List StateSet) → List (Nat × StateSet) →
    Except String (List (Nat × StateSet))
  | [], temp => .ok temp
  | choice :: rest, temp =>
    let parents := (evalChoice cfg symbol choice).map (fun t => t.state)
    let pf := postFold cfg.ind cfg.inv cfg.biggerFinals parents
    let isSmallerAccepting := memNat smallerState cfg.smallerFinals
    if pf.1.isEmpty || (!pf.2 && isSmallerAccepting) then
      .error descSmallerAccepts
    else
      let tmp := sortNat pf.1
      if checkIntersection (cfg.ind.getD smallerState []) tmp then
        choicesLoop cfg symbol smallerState rest temp
      else if ac2contains temp (cfg.ind.getD smallerState []) tmp (upLte cfg.ind) then
        choicesLoop cfg symbol smallerState rest temp
      else
        choicesLoop cfg symbol smallerState rest
          (ac2insert (ac2refine temp (cfg.inv.getD smallerState []) tmp (upGte cfg.ind))
            smallerState tmp)

/-- Embeds the promotion of `temporary` into `processed` / `next`
(lines 556-580), with the `Eraser` callback propagating refinement into
`next`. -/
def promote (cfg : UpCfg) : List (Nat × StateSet) → UpSt → UpSt
  | [], st => st
  | (k, v) :: rest, st =>
    if ac2contains st.processed (cfg.ind.getD k []) v (upLte cfg.ind) then
      promote cfg rest st
    else
      let removed := ac2removedBy st.processed (cfg.inv.getD k []) v (upGte cfg.ind)
      let processed2 :=
        ac2insert (ac2refine st.processed (cfg.inv.getD k []) v (upGte cfg.ind)) k v
      promote cfg rest
        { processed := processed2
          next := osInsert (removed.foldl osErase st.next) (k, v) }

/-- One smaller transition of the inductive step (lines 464-581): build
the choice vector, enumerate it, then promote `temporary`. -/
def transitionStep (cfg : UpCfg) (symbol j : Nat) (Q : StateSet)
    (t : UpTransition) (st : UpSt) : Except String UpSt :=
  match choiceLists st.processed Q t.children j with
  | none => .ok st
  | some ls =>
    match choicesLoop cfg symbol t.state (choiceProduct ls) [] with
    | .error d => .error d
    | .ok temp => .ok (promote cfg temp st)

/-- The loop over the transitions sharing one symbol and child slot. -/
def transLoop (cfg : UpCfg) (symbol j : Nat) (Q : StateSet) :
    List UpTransition → UpSt → Except String UpSt
  | [], st => .ok st
  | t :: rest, st =>
    match transitionStep cfg symbol j Q t st with
    | .error d => .error d
    | .ok st2 => transLoop cfg symbol j Q rest st2

/-- The loop over child slots `j` (lines 460-584). -/
def slotLoop (cfg : UpCfg) (symbol : Nat) (Q : StateSet) :
    List (Nat × List UpTransition) → UpSt → Except String UpSt
  | [], st => .ok st
  | (j, ts) :: rest, st =>
    match transLoop cfg symbol j Q ts st with
    | .error d => .error d
    | .ok st2 => slotLoop cfg symbol Q rest st2

/-- The loop over the symbols of the popped state's transition index
(lines 458-585). -/
def upSymbolLoop (cfg : UpCfg) (Q : StateSet) :
    List (Nat × List (List UpTransition)) → UpSt → Except String UpSt
  | [], st => .ok st
  | (symbol, positions) :: rest, st =>
    match slotLoop cfg symbol Q positions.enum st with
    | .error d => .error d
    | .ok st2 => upSymbolLoop cfg Q rest st2

/-- The whole inductive step for one popped pair `(q, Q)`. -/
def upAllSymbols (cfg : UpCfg) (q : Nat) (Q : StateSet) (st : UpSt) :
    Except String UpSt :=
  upSymbolLoop cfg Q (cfg.smallerIndex.getD q []).enum st

/-- Embeds the main worklist loop (lines 445-586), fuel-indexed: pop the
least pending pair, run the inductive step, stop with the verdict. -/
def upLoop (cfg : UpCfg) : Nat → UpSt → Option (Bool × String)
  | 0, _ => none
  | fuel + 1, st =>
    match osMin st.next with
    | none => some (true, descProved)
    | some qQ =>
      let st1 : UpSt := { processed := st.processed, next := osErase st.next qQ }
      match upAllSymbols cfg qQ.1 qQ.2 st1 with
      | .error d => some (false, d)
      | .ok st2 => upLoop cfg fuel st2

/-- Embeds `ExplicitUpwardInclusion::checkInternal` (lines 250-591): the
leaf phase followed by the worklist loop; the returned pair is the boolean
verdict and the description set in the `InclContext`. -/
def checkUp (cfg : UpCfg) (fuel : Nat) : Option (Bool × String) :=
  match leafPhase cfg with
  | .error d => some (false, d)
  | .ok st => upLoop cfg fuel st

/-! ### Claim C2 — the refutation condition of the inductive step -/

theorem postFold_acc (ind inv : List (List Nat)) (finals : List Nat) :
    ∀ (l : List Nat) (post : List Nat) (acc : Bool),
      (l.foldl (postFoldStep ind inv finals) (post, acc)).2 =
        (acc || (admittedStates ind inv post l).any (fun s => memNat s finals)) := by
  intro l
  induction l with
  | nil => intro post acc; simp [admittedStates]
  | cons s rest ih =>
    intro post acc
    by_cases hc : ac1contains post (ind.getD s []) = true
    · simp only [List.foldl_cons, postFoldStep, hc, if_true, admittedStates]
      exact ih post acc
    · simp only [List.foldl_cons, postFoldStep, hc, Bool.false_eq_true, if_false,
        admittedStates, List.any_cons]
      rw [ih]
      simp [Bool.or_assoc]

theorem postFold_acc_eq (ind inv : List (List Nat)) (finals l : List Nat) :
    (postFold ind inv finals l).2 =
      (admittedStates ind inv [] l).any (fun s => memNat s finals) := by
  simpa [postFold] using postFold_acc ind inv finals l [] false

/-- Claim C2 (amended): for every popped pair, small-side transition with
parent `p` and choice of macro-states, the step refutes exactly when the
computed post macro-state is empty (irrespective of whether `p` is final),
or when `p` is final in the smaller automaton and none of the bigger
parent states admitted into the post computation is final in the bigger
automaton. -/
theorem upStepRefutation (ind inv : List (List Nat))
    (biggerFinals biggerParents : List Nat) (smallerFinal : Bool) :
    stepRefutes ind inv biggerFinals biggerParents smallerFinal = true ↔
      ((postFold ind inv biggerFinals biggerParents).1 = [] ∨
        (smallerFinal = true ∧
          ∀ s ∈ admittedStates ind inv [] biggerParents,
            memNat s biggerFinals = false)) := by
  simp only [stepRefutes, Bool.or_eq_true, Bool.and_eq_true, Bool.not_eq_eq_eq_not,
    Bool.not_true, List.isEmpty_iff, postFold_acc_eq, List.any_eq_false]
  constructor
  · rintro (h | ⟨h1, h2⟩)
    · exact Or.inl h
    · exact Or.inr ⟨h2, fun s hs => by simpa using h1 s hs⟩
  · rintro (h | ⟨h1, h2⟩)
    · exact Or.inl h
    · exact Or.inr ⟨fun s hs => by simpa using h2 s hs, h1⟩

/-- Counterexample to claim C2 as stated, at two concrete inputs.  First:
with no matching bigger transitions and a non-final smaller parent the
code refutes although the claim (conditioning both disjuncts on `p`
final) predicts no refutation.  Second: with bigger states `0 R 1`,
state `0` final and admitted first, then refined away by state `1`, the
post macro-state `[1]` holds no final state and `p` is final, so the
claim predicts refutation — but the code does not refute because its
accumulated acceptance flag remembers the admitted state `0`. -/
theorem upStepRefutation_counterexample :
    (stepRefutes [] [] [] [] false = true ∧
      ¬ ((((postFold [] [] [] []).1 = [] ∧ False) ∨
          ((∀ s ∈ (postFold [] [] [] []).1, memNat s [] = false) ∧ False)))) ∧
    (stepRefutes [[0, 1], [1]] [[0], [0, 1]] [0] [0, 1] true = false ∧
      (postFold [[0, 1], [1]] [[0], [0, 1]] [0] [0, 1]).1 = [1] ∧
      (∀ s ∈ (postFold [[0, 1], [1]] [[0], [0, 1]] [0] [0, 1]).1,
        memNat s [0] = false)) := by
  decide

/-! ### Claim C4 — leaf seeding -/

theorem leafSmallerLoop_refutes (cfg : UpCfg) (tmp : List Nat) :
    ∀ (ts : List UpTransition) (st : UpSt),
      (∃ t ∈ ts, memNat t.state cfg.smallerFinals = true) →
      leafSmallerLoop cfg false tmp ts st = .error descNotCovered := by
  intro ts
  induction ts with
  | nil => intro st h; simp at h
  | cons t rest ih =>
    intro st h
    by_cases hf : memNat t.state cfg.smallerFinals = true
    · simp [leafSmallerLoop, hf]
    · have hrest : ∃ u ∈ rest, memNat u.state cfg.smallerFinals = true := by
        obtain ⟨u, hu, hfu⟩ := h
        cases hu with
        | head => exact absurd hfu hf
        | tail _ hmem => exact ⟨u, hmem, hfu⟩
      have hf0 : memNat t.state cfg.smallerFinals = false := by
        simpa using hf
      simp only [leafSmallerLoop, hf0, Bool.not_false, Bool.true_and,
        Bool.false_eq_true, if_false]
      split_ifs with h1 h2
      · exact ih _ hrest
      · exact ih _ hrest
      · exact ih _ hrest

theorem leafSymbolStep_refutes (cfg : UpCfg) (symbol : Nat)
    (hbig : cfg.biggerLeaves.getD symbol [] = [])
    (hsm : ∃ t ∈ cfg.smallerLeaves.getD symbol [],
      memNat t.state cfg.smallerFinals = true) :
    ∀ st : UpSt, leafSymbolStep cfg symbol st = .error descNotCovered := by
  intro st
  have hpf : postFold cfg.ind cfg.inv cfg.biggerFinals
      ((cfg.biggerLeaves.getD symbol []).map (fun t => t.state)) = ([], false) := by
    rw [hbig]
    rfl
  simp only [leafSymbolStep, hpf]
  exact leafSmallerLoop_refutes cfg (sortNat []) _ st hsm

theorem leafSymbols_refutes (cfg : UpCfg) (symbol : Nat)
    (hstep : ∀ st : UpSt, leafSymbolStep cfg symbol st = .error descNotCovered) :
    ∀ (syms : List Nat) (st : UpSt), symbol ∈ syms →
      ∃ d, leafSymbols cfg syms st = .error d := by
  intro syms
  induction syms with
  | nil => intro st h; simp at h
  | cons s rest ih =>
    intro st hmem
    cases hs : leafSymbolStep cfg s st with
    | error d => exact ⟨d, by simp [leafSymbols, hs]⟩
    | ok st2 =>
      have hne : s ≠ symbol := by
        intro he
        rw [he, hstep st] at hs
        exact Except.noConfusion hs
      have hmem2 : symbol ∈ rest := by
        cases hmem with
        | head => exact absurd rfl hne
        | tail _ hm => exact hm
      obtain ⟨d, hd⟩ := ih st2 hmem2
      exact ⟨d, by simp [leafSymbols, hs, hd]⟩

/-- Claim C4 (amended): during leaf seeding, for every leaf symbol `σ`
in range of the smaller automaton's leaf map: if the bigger automaton has
no `σ`-transition while the smaller automaton has a `σ`-leaf-transition
whose target is final in the smaller automaton, the check refutes. -/
theorem upLeafSeeding_refutes (cfg : UpCfg) (symbol fuel : Nat)
    (hrange : symbol < cfg.smallerLeaves.length)
    (hbig : cfg.biggerLeaves.getD symbol [] = [])
    (hsm : ∃ t ∈ cfg.smallerLeaves.getD symbol [],
      memNat t.state cfg.smallerFinals = true) :
    ∃ d, checkUp cfg fuel = some (false, d) := by
  by_cases hsz : cfg.biggerLeaves.length < cfg.smallerLeaves.length
  · exact ⟨descSizes, by simp [checkUp, leafPhase, hsz]⟩
  · have hstep := leafSymbolStep_refutes cfg symbol hbig hsm
    obtain ⟨d, hd⟩ := leafSymbols_refutes cfg symbol hstep
      (List.range cfg.smallerLeaves.length) { processed := [], next := [] }
      (List.mem_range.2 hrange)
    exact ⟨d, by simp [checkUp, leafPhase, hsz, hd]⟩

/-- Witness for the amended claim C4: the smaller automaton has the leaf
`a → 0` with `0` final, the bigger automaton has no `a`-transition; the
check refutes with the leaves-not-covered description. -/
theorem upLeafSeeding_refutes_witness :
    (0 < ([[⟨0, [], 0⟩]] : List (List UpTransition)).length ∧
      ([[], [⟨1, [], 1⟩]] : List (List UpTransition)).getD 0 [] = [] ∧
      (∃ t ∈ ([[⟨0, [], 0⟩]] : List (List UpTransition)).getD 0 [],
        memNat t.state [0] = true)) ∧
    ∃ d,
      checkUp
        { smallerLeaves := [[⟨0, [], 0⟩]], smallerIndex := [[]],
          smallerFinals := [0], biggerLeaves := [[], [⟨1, [], 1⟩]],
          biggerIndex := [], biggerFinals := [1], ind := [[0], [1]],
          inv := [[0], [1]] } 3 = some (false, d) :=
  ⟨⟨by decide, by decide, ⟨⟨0, [], 0⟩, by decide, by decide⟩⟩,
    upLeafSeeding_refutes _ 0 3 (by decide) (by decide)
      ⟨⟨0, [], 0⟩, by decide, by decide⟩⟩

/-- Counterexample to claim C4 as stated: symbol `0` has no transition in
the bigger automaton but has one in the smaller automaton (whose target
is not final); the check does not refute — it returns `true`. -/
theorem upLeafSeeding_claim_counterexample :
    (([[], [⟨1, [], 1⟩]] : List (List UpTransition)).getD 0 [] = [] ∧
      ([[⟨0, [], 0⟩]] : List (List UpTransition)).getD 0 [] ≠ []) ∧
    checkUp
      { smallerLeaves := [[⟨0, [], 0⟩]], smallerIndex := [[]],
        smallerFinals := [], biggerLeaves := [[], [⟨1, [], 1⟩]],
        biggerIndex := [], biggerFinals := [1], ind := [[0], [1]],
        inv := [[0], [1]] } 3 = some (true, descProved) := by
  exact ⟨⟨by decide, by decide⟩, by decide⟩

/-! ### Claim C5 — refutation descriptions of the upward check -/

theorem leafSmallerLoop_error (cfg : UpCfg) (isAccepting : Bool) (tmp : List Nat) :
    ∀ (ts : List UpTransition) (st : UpSt) (d : String),
      leafSmallerLoop cfg isAccepting tmp ts st = .error d → d = descNotCovered := by
  intro ts
  induction ts with
  | nil => intro st d h; simp [leafSmallerLoop] at h
  | cons t rest ih =>
    intro st d h
    simp only [leafSmallerLoop] at h
    split_ifs at h with h1 h2 h3
    · exact (Except.error.injEq _ _ ▸ h).symm ▸ rfl
    · exact ih _ _ h
    · exact ih _ _ h
    · exact ih _ _ h

theorem leafSymbolStep_error (cfg : UpCfg) (symbol : Nat) (st : UpSt) (d : String)
    (h : leafSymbolStep cfg symbol st = .error d) : d = descNotCovered := by
  simp only [leafSymbolStep] at h
  exact leafSmallerLoop_error cfg _ _ _ _ _ h

theorem leafSymbols_error (cfg : UpCfg) :
    ∀ (syms : List Nat) (st : UpSt) (d : String),
      leafSymbols cfg syms st = .error d → d = descNotCovered := by
  intro syms
  induction syms with
  | nil => intro st d h; simp [leafSymbols] at h
  | cons sym rest ih =>
    intro st d h
    simp only [leafSymbols] at h
    cases hs : leafSymbolStep cfg sym st with
    | error d2 =>
      rw [hs] at h
      cases h
      exact leafSymbolStep_error cfg sym st _ hs
    | ok st2 =>
      rw [hs] at h
      exact ih st2 d h

theorem leafPhase_error (cfg : UpCfg) (d : String)
    (h : leafPhase cfg = .error d) : d = descSizes ∨ d = descNotCovered := by
  simp only [leafPhase] at h
  split_ifs at h with h1
  · cases h
    exact Or.inl rfl
  · exact Or.inr (leafSymbols_error cfg _ _ d h)

theorem choicesLoop_error (cfg : UpCfg) (symbol smallerState : Nat) :
    ∀ (cs : List (List StateSet)) (temp : List (Nat × StateSet)) (d : String),
      choicesLoop cfg symbol smallerState cs temp = .error d →
      d = descSmallerAccepts := by
  intro cs
  induction cs with
  | nil => intro temp d h; simp [choicesLoop] at h
  | cons c rest ih =>
    intro temp d h
    simp only [choicesLoop] at h
    split_ifs at h with h1 h2 h3
    · cases h
      rfl
    · exact ih _ _ h
    · exact ih _ _ h
    · exact ih _ _ h

theorem transitionStep_error (cfg : UpCfg) (symbol j : Nat) (Q : StateSet)
    (t : UpTransition) (st : UpSt) (d : String)
    (h : transitionStep cfg symbol j Q t st = .error d) :
    d = descSmallerAccepts := by
  simp only [transitionStep] at h
  split at h
  · simp at h
  · split at h
    · next d2 hd2 =>
      cases h
      exact choicesLoop_error cfg symbol t.state _ _ _ hd2
    · simp at h

theorem transLoop_error (cfg : UpCfg) (symbol j : Nat) (Q : StateSet) :
    ∀ (ts : List UpTransition) (st : UpSt) (d : String),
      transLoop cfg symbol j Q ts st = .error d → d = descSmallerAccepts := by
  intro ts
  induction ts with
  | nil => intro st d h; simp [transLoop] at h
  | cons t rest ih =>
    intro st d h
    simp only [transLoop] at h
    cases hs : transitionStep cfg symbol j Q t st with
    | error d2 =>
      rw [hs] at h
      cases h
      exact transitionStep_error cfg symbol j Q t st _ hs
    | ok st2 =>
      rw [hs] at h
      exact ih st2 d h

theorem slotLoop_error (cfg : UpCfg) (symbol : Nat) (Q : StateSet) :
    ∀ (ps : List (Nat × List UpTransition)) (st : UpSt) (d : String),
      slotLoop cfg symbol Q ps st = .error d → d = descSmallerAccepts := by
  intro ps
  induction ps with
  | nil => intro st d h; simp [slotLoop] at h
  | cons p rest ih =>
    intro st d h
    obtain ⟨j, ts⟩ := p
    simp only [slotLoop] at h
    cases hs : transLoop cfg symbol j Q ts st with
    | error d2 =>
      rw [hs] at h
      cases h
      exact transLoop_error cfg symbol j Q ts st _ hs
    | ok st2 =>
      rw [hs] at h
      exact ih st2 d h

theorem upSymbolLoop_error (cfg : UpCfg) (Q : StateSet) :
    ∀ (ss : List (Nat × List (List UpTransition))) (st : UpSt) (d : String),
      upSymbolLoop cfg Q ss st = .error d → d = descSmallerAccepts := by
  intro ss
  induction ss with
  | nil => intro st d h; simp [upSymbolLoop] at h
  | cons p rest ih =>
    intro st d h
    obtain ⟨symbol, positions⟩ := p
    simp only [upSymbolLoop] at h
    cases hs : slotLoop cfg symbol Q positions.enum st with
    | error d2 =>
      rw [hs] at h
      cases h
      exact slotLoop_error cfg symbol Q _ st _ hs
    | ok st2 =>
      rw [hs] at h
      exact ih st2 d h

theorem upLoop_verdict (cfg : UpCfg) :
    ∀ (fuel : Nat) (st : UpSt) (b : Bool) (d : String),
      upLoop cfg fuel st = some (b, d) →
      (b = true → d = descProved) ∧ (b = false → d = descSmallerAccepts) := by
  intro fuel
  induction fuel with
  | zero => intro st b d h; simp [upLoop] at h
  | succ n ih =>
    intro st b d h
    simp only [upLoop] at h
    split at h
    · simp only [Option.some.injEq, Prod.mk.injEq] at h
      obtain ⟨hb, hd⟩ := h
      subst hb
      subst hd
      exact ⟨fun _ => rfl, fun hb => by cases hb⟩
    · next qQ hqQ =>
      split at h
      · next d2 hd2 =>
        simp only [Option.some.injEq, Prod.mk.injEq] at h
        obtain ⟨hb, hd⟩ := h
        subst hb
        subst hd
        refine ⟨fun hb => absurd hb (by decide), fun _ => ?_⟩
        simp only [upAllSymbols] at hd2
        exact upSymbolLoop_error cfg qQ.2 _ _ _ hd2
      · next st2 hst2 =>
        exact ih st2 b d h

/-- Claim C5: a false verdict of the upward inclusion check is not an
error — the embedding is total apart from fuel — and its description is
one of exactly three reasons: leaves-set-sizes-incompatible,
leaves-not-covered, or smaller-accepts-bigger-does-not; a true verdict
carries only the proof message, no refutation reason. -/
theorem upVerdictDescriptions (cfg : UpCfg) (fuel : Nat) (b : Bool) (d : String)
    (h : checkUp cfg fuel = some (b, d)) :
    (b = true → d = descProved) ∧
    (b = false → d = descSizes ∨ d = descNotCovered ∨ d = descSmallerAccepts) := by
  simp only [checkUp] at h
  cases hl : leafPhase cfg with
  | error d2 =>
    rw [hl] at h
    simp only [Option.some.injEq, Prod.mk.injEq] at h
    obtain ⟨hb, hd⟩ := h
    subst hb
    subst hd
    refine ⟨fun hb => absurd hb (by decide), fun _ => ?_⟩
    rcases leafPhase_error cfg _ hl with h1 | h1
    · exact Or.inl h1
    · exact Or.inr (Or.inl h1)
  | ok st =>
    rw [hl] at h
    have := upLoop_verdict cfg fuel st b d h
    exact ⟨this.1, fun hb => Or.inr (Or.inr (this.2 hb))⟩

/-- A leaf-only configuration whose smaller leaf target is final while the
bigger automaton lacks the symbol entirely; the check refutes with the
leaves-not-covered description. -/
def upCfgFinalLeaf : UpCfg :=
  { smallerLeaves := [[⟨0, [], 0⟩]], smallerIndex := [[]],
    smallerFinals := [0], biggerLeaves := [[], [⟨1, [], 1⟩]],
    biggerIndex := [], biggerFinals := [1], ind := [[0], [1]],
    inv := [[0], [1]] }

/-- Witness for claim C5 at a run refuting with the leaves-not-covered
description. -/
theorem upVerdictDescriptions_witness :
    checkUp upCfgFinalLeaf 3 = some (false, descNotCovered) ∧
    ((false = true → descNotCovered = descProved) ∧
      (false = false → descNotCovered = descSizes ∨
        descNotCovered = descNotCovered ∨ descNotCovered = descSmallerAccepts)) :=
  ⟨by decide,
    upVerdictDescriptions upCfgFinalLeaf 3 false descNotCovered (by decide)⟩

/-! ### Claim C1 — the verdicts versus set-theoretic language inclusion -/

/-- Ranked trees over natural-number symbols. -/
inductive Tree where
  | node (symbol : Nat) (children : List Tree)
deriving Repr

/-- An explicit tree automaton, as the data model gives it: a transition
set and a set of final states. -/
structure TreeAut where
  transitions : List UpTransition
  finals : List Nat
deriving Repr, DecidableEq

/-- Bottom-up runs: `AutRun A t q` holds when the automaton can produce
state `q` at the root of the tree `t`. -/
inductive AutRun (A : TreeAut) : Tree → Nat → Prop where
  | step : ∀ (symbol : Nat) (ts : List Tree) (children : List Nat) (q : Nat),
      (⟨symbol, children, q⟩ : UpTransition) ∈ A.transitions →
      ts.length = children.length →
      (∀ (i : Nat) (h1 : i < ts.length) (h2 : i < children.length),
        AutRun A (ts.get ⟨i, h1⟩) (children.get ⟨i, h2⟩)) →
      AutRun A (Tree.node symbol ts) q

/-- Language membership: some final state has a run on the tree. -/
def autAccepts (A : TreeAut) (t : Tree) : Prop :=
  ∃ q, memNat q A.finals = true ∧ AutRun A t q

/-- Set-theoretic language inclusion `L(A) ⊆ L(B)`. -/
def langIncl (A B : TreeAut) : Prop :=
  ∀ t, autAccepts A t → autAccepts B t

/-- Largest symbol index used by the automaton, plus one. -/
def numSymbols (A : TreeAut) : Nat :=
  A.transitions.foldl (fun m t => max m (t.symbol + 1)) 0

/-- Largest state index used by the automaton, plus one. -/
def autNumStates (A : TreeAut) : Nat :=
  A.transitions.foldl
    (fun m t => max (max m (t.state + 1))
      (t.children.foldl (fun mm c => max mm (c + 1)) 0)) 0

/-- Largest arity a symbol is used with. -/
def symArity (A : TreeAut) (s : Nat) : Nat :=
  A.transitions.foldl
    (fun m t => if t.symbol == s then max m t.children.length else m) 0

/-- Modelled from the spec: the bottom-up leaf index `leaves(sym)` — per
symbol, the arity-0 transitions under it (the index construction lives in
headers not among the sources). -/
def mkLeaves (A : TreeAut) : List (List UpTransition) :=
  (List.range (numSymbols A)).map (fun s =>
    A.transitions.filter (fun t => t.symbol == s && t.children.isEmpty))

/-- Modelled from the spec: the smaller automaton's child-indexed view —
per state, symbol and child slot, the transitions with that state at that
slot. -/
def mkSmallerIndex (A : TreeAut) : List (List (List (List UpTransition))) :=
  (List.range (autNumStates A)).map (fun q =>
    (List.range (numSymbols A)).map (fun s =>
      (List.range (symArity A s)).map (fun j =>
        A.transitions.filter
          (fun t => t.symbol == s && t.children.get? j == some q))))

/-- Modelled from the spec: the bigger automaton's doubly indexed view —
per symbol, child slot and child state, the matching transitions. -/
def mkBiggerIndex (B : TreeAut) : List (List (List (List UpTransition))) :=
  (List.range (numSymbols B)).map (fun s =>
    (List.range (symArity B s)).map (fun j =>
      (List.range (autNumStates B)).map (fun c =>
        B.transitions.filter
          (fun t => t.symbol == s && t.children.get? j == some c))))

/-- The identity preorder's index views over `n` union states:
`ind[s] = inv[s] = {s}`. -/
def mkIdIndex (n : Nat) : List (List Nat) :=
  (List.range n).map (fun s => [s])

/-- The inputs `checkInternal` receives for the pair `(A, B)` under the
identity preorder on `n` union states. -/
def mkUpCfg (A B : TreeAut) (n : Nat) : UpCfg :=
  { smallerLeaves := mkLeaves A
    smallerIndex := mkSmallerIndex A
    smallerFinals := A.finals
    biggerLeaves := mkLeaves B
    biggerIndex := mkBiggerIndex B
    biggerFinals := B.finals
    ind := mkIdIndex n
    inv := mkIdIndex n }

/-- The smaller automaton of the C1 instances: `a → p` and `f(p) → p`
with no final state.  Its language is empty, but `p` is useless (not
coaccessible). -/
def c1smaller : TreeAut :=
  { transitions := [⟨0, [], 0⟩, ⟨1, [0], 0⟩], finals := [] }

/-- The bigger automaton of the deeper C1 instance: `a → r` with `r`
final, plus `f(s) → s` on an unreachable state `s` (so both symbols
exist and the leaf maps are size-compatible). -/
def c1bigger : TreeAut :=
  { transitions := [⟨0, [], 1⟩, ⟨1, [2], 2⟩], finals := [1] }

/-- A single-leaf smaller automaton with no finals, and an empty bigger
automaton — the size-check instance. -/
def c0smaller : TreeAut := { transitions := [⟨0, [], 0⟩], finals := [] }

/-- The empty bigger automaton. -/
def c0bigger : TreeAut := { transitions := [], finals := [] }

theorem langIncl_of_no_finals (A B : TreeAut) (h : A.finals = []) :
    langIncl A B := by
  intro t ht
  obtain ⟨q, hq, -⟩ := ht
  rw [h] at hq
  simp [memNat] at hq

/-- Counterexample to claim C1 as stated: `L(c0smaller) = ∅ ⊆
L(c0bigger)` holds, but the upward check with the identity preorder
refutes (here already by the leaf-map size check), so the boolean verdict
does not equal the set-theoretic inclusion. -/
theorem upInclusion_claim_counterexample :
    langIncl c0smaller c0bigger ∧
    checkUp (mkUpCfg c0smaller c0bigger 1) 1 = some (false, descSizes) :=
  ⟨langIncl_of_no_finals c0smaller c0bigger rfl, by decide⟩

/-- Claim C1 (amended): the four-way equality of the spec requires the
no-useless-states precondition; it fails on automata with useless states
even when the leaf maps are size-compatible.  For the concrete pair
`c1smaller` (language ∅, with a non-coaccessible state) and `c1bigger`,
the set-theoretic inclusion holds while `InclUpward` under the identity
preorder refutes at the first popped pair, for every amount of fuel. -/
theorem upInclusion_usefulness_required (fuel : Nat) :
    langIncl c1smaller c1bigger ∧
    checkUp (mkUpCfg c1smaller c1bigger 3) (fuel + 1) =
      some (false, descSmallerAccepts) := by
  constructor
  · exact langIncl_of_no_finals c1smaller c1bigger rfl
  · have hleaf : leafPhase (mkUpCfg c1smaller c1bigger 3) =
        .ok { processed := [(0, [1])], next := [(0, [1])] } := by rfl
    have hmin : osMin [((0 : Nat), ([1] : List Nat))] = some (0, [1]) := by decide
    have hstep : upAllSymbols (mkUpCfg c1smaller c1bigger 3) 0 [1]
        { processed := [(0, [1])],
          next := osErase [((0 : Nat), ([1] : List Nat))] (0, [1]) } =
        .error descSmallerAccepts := by rfl
    simp only [checkUp, hleaf, upLoop, hmin, hstep]

/-!
## LTS simulation engine — OLRT (`src/explicit_lts_sim.cc`, lines 208-872)

The pointer structures become indexed values: blocks live in a list at
their block index, the doubly linked state ring becomes the block's state
list plus a state-to-block map, `SmartSet` insets become label multisets
iterated over their distinct elements, remove lists become optional plain
lists, and the shared counter rows live in the arena of the previous
section.  `ExplicitLTS` itself (states, labels, edges with `pre` / `post`
views and `buildDelta`) is modelled from the spec, its header not being
among the sources.
-/

/-- Modelled from the spec: a labelled transition system — states,
labels, and labelled edges `(source, label, target)`. -/
structure MLts where
  states : Nat
  labels : Nat
  edges : List (Nat × Nat × Nat)
deriving Repr, DecidableEq

/-- Modelled from the spec: `lts.pre(label)[state]` — the `label`-predecessors. -/
def ltsPre (lts : MLts) (a q : Nat) : List Nat :=
  (lts.edges.filter (fun e => e.2.1 == a && e.2.2 == q)).map (fun e => e.1)

/-- Modelled from the spec: `lts.post(label)[state]` — the `label`-successors. -/
def ltsPost (lts : MLts) (a q : Nat) : List Nat :=
  (lts.edges.filter (fun e => e.1 == q && e.2.1 == a)).map (fun e => e.2.2)

/-- Modelled from the spec: `lts.bwLabels(q)` — labels under which `q`
has a predecessor. -/
def ltsBwLabels (lts : MLts) (q : Nat) : List Nat :=
  (List.range lts.labels).filter (fun a => !(ltsPre lts a q).isEmpty)

/-- Modelled from the spec: `buildDelta`'s `delta1[a]` — the dense domain
`δ⁻¹(a)`: states with an outgoing `a`-edge; `range[a]` is its size and
`key` maps each such state to its dense index. -/
def ltsDelta1 (lts : MLts) : List (List Nat) :=
  (List.range lts.labels).map (fun a =>
    (List.range lts.states).filter (fun q => !(ltsPost lts a q).isEmpty))

/-- The `key` vector: `key[a·|Q| + q]` is the dense index of `q` within
`δ⁻¹(a)` (lines 698-711; the C++ fills unused entries with `-1`, never
read — here they stay `0`). -/
def mkKey (lts : MLts) (delta1 : List (List Nat)) : List Nat :=
  (List.range lts.labels).foldl
    (fun k a =>
      ((delta1.getD a []).enum).foldl
        (fun k2 xq => k2.set (a * lts.states + xq.2) xq.1) k)
    (List.replicate (lts.labels * lts.states) 0)

/-- Modelled from the spec: `SmartSet` adds a counted occurrence. -/
def smartAdd (s : List Nat) (a : Nat) : List Nat := s ++ [a]

/-- Modelled from the spec: `SmartSet.removeStrict` drops one counted
occurrence. -/
def smartRemoveStrict (s : List Nat) (a : Nat) : List Nat := s.erase a

/-- Modelled from the spec: iterating a `SmartSet` visits each present
element once. -/
def smartElems (s : List Nat) : List Nat := s.dedup

/-- A partition block (`OLRTBlock`, lines 253-372): its index, state
ring, split-in-progress ring `tmp`, inset, per-label remove lists and
per-label counter row ids. -/
structure MBlock where
  index : Nat
  states : List Nat
  tmp : List Nat
  inset : List Nat
  remove : List (Option (List Nat))
  counter : List (Option Nat)
deriving Repr, DecidableEq

def emptyBlock : MBlock :=
  { index := 0, states := [], tmp := [], inset := [], remove := [], counter := [] }

/-- The whole algorithm state (`OLRTAlgorithm`, lines 368-388). -/
structure OLRTSt where
  partition : List MBlock
  relation : List (List Bool)
  blockOf : List Nat
  queue : List (Nat × Nat)
  arena : List (List Nat)
  delta1 : List (List Nat)
  key : List Nat
  rangev : List Nat
deriving Repr, DecidableEq

/-- Reading the block relation matrix. -/
def relGet (rel : List (List Bool)) (i j : Nat) : Bool :=
  (rel.getD i []).getD j false

/-- Writing the block relation matrix. -/
def relSet (rel : List (List Bool)) (i j : Nat) (v : Bool) : List (List Bool) :=
  rel.set i ((rel.getD i []).set j v)

/-- Modelled from the spec: `BinaryRelation::split(idx, true)` — the new
block initially relates exactly like its parent: its row and column copy
row and column `idx`, and the new index is the old size. -/
def relSplit (rel : List (List Bool)) (idx : Nat) : List (List Bool) :=
  (rel.map (fun row => row ++ [row.getD idx false])) ++
    [(rel.getD idx []) ++ [(rel.getD idx []).getD idx false]]

/-- Embeds the first `OLRTBlock` constructor (lines 275-287): the block of
all states, its inset collected from every state's backward labels. -/
def mkInitialBlock (lts : MLts) : MBlock :=
  { index := 0
    states := List.range lts.states
    tmp := []
    inset := (List.range lts.states).foldl
      (fun ins q => (ltsBwLabels lts q).foldl smartAdd ins) []
    remove := List.replicate lts.labels none
    counter := List.replicate lts.labels none }

/-- Embeds the child `OLRTBlock` constructor (lines 289-311): the child
takes the parent's `tmp` ring; each moved state's backward labels migrate
from the parent's inset to the child's. -/
def mkChildBlock (lts : MLts) (parent : MBlock) (newIndex : Nat) :
    MBlock × MBlock :=
  let childStates := parent.tmp
  ({ parent with
      tmp := []
      inset := childStates.foldl
        (fun ins q => (ltsBwLabels lts q).foldl smartRemoveStrict ins) parent.inset },
   { index := newIndex
     states := childStates
     tmp := []
     inset := childStates.foldl
       (fun ins q => (ltsBwLabels lts q).foldl smartAdd ins) []
     remove := List.replicate lts.labels none
     counter := List.replicate lts.labels none })

/-- Embeds `internalSplit` (lines 425-451): move every remove-list state
to its block's `tmp` ring, collecting each touched block once. -/
def internalSplit (st : OLRTSt) (remove : List Nat) : List Nat × OLRTSt :=
  remove.foldl
    (fun (acc : List Nat × OLRTSt) q =>
      let s := acc.2
      let bi := s.blockOf.getD q 0
      let b := s.partition.getD bi emptyBlock
      let b2 := { b with states := b.states.erase q, tmp := b.tmp ++ [q] }
      let s2 := { s with partition := s.partition.set bi b2 }
      (if acc.1.contains bi then acc.1 else acc.1 ++ [bi], s2))
    ([], st)

/-- Embeds the body of `fastSplit` (lines 453-471) for one modified
block: restore a fully moved block, otherwise split off a child that
initially relates like its parent. -/
def fastSplitOne (lts : MLts) (st : OLRTSt) (bi : Nat) : OLRTSt :=
  let b := st.partition.getD bi emptyBlock
  if b.states.isEmpty then
    let b2 := { b with states := b.tmp, tmp := ([] : List Nat) }
    { st with partition := st.partition.set bi b2 }
  else if b.tmp.isEmpty then st
  else
    let newIndex := st.relation.length
    let pc := mkChildBlock lts b newIndex
    { st with
        partition := (st.partition.set bi pc.1) ++ [pc.2]
        relation := relSplit st.relation b.index
        blockOf := pc.2.states.foldl (fun m q => m.set q newIndex) st.blockOf }

/-- Embeds `fastSplit` (lines 453-471). -/
def fastSplit (lts : MLts) (st : OLRTSt) (remove : List Nat) : OLRTSt :=
  let r := internalSplit st remove
  r.1.foldl (fastSplitOne lts) r.2

/-- Embeds the body of `split` (lines 473-515) for one modified block:
like `fastSplitOne`, but the fully moved block or fresh child joins the
remove list, and the child inherits shared counter rows and copies of the
parent's remove lists (re-enqueuing each copied pair). -/
def splitOne (lts : MLts) (acc : List Nat × OLRTSt) (bi : Nat) :
    List Nat × OLRTSt :=
  let st := acc.2
  let b := st.partition.getD bi emptyBlock
  if b.states.isEmpty then
    let b2 := { b with states := b.tmp, tmp := ([] : List Nat) }
    (acc.1 ++ [bi], { st with partition := st.partition.set bi b2 })
  else if b.tmp.isEmpty then acc
  else
    let newIndex := st.relation.length
    let pc := mkChildBlock lts b newIndex
    let inherited := (smartElems pc.2.inset).foldl
      (fun (a2 : MBlock × List (List Nat) × List (Nat × Nat)) a =>
        let cr := counterCopyRow a2.2.1 a2.1.counter pc.1.counter a
        let child := { a2.1 with counter := cr.2 }
        match pc.1.remove.getD a none with
        | none => (child, cr.1, a2.2.2)
        | some rl =>
          ({ child with remove := child.remove.set a (some rl) }, cr.1,
            a2.2.2 ++ [(newIndex, a)]))
      (pc.2, st.arena, st.queue)
    (acc.1 ++ [newIndex],
      { st with
          partition := (st.partition.set bi pc.1) ++ [inherited.1]
          relation := relSplit st.relation b.index
          blockOf := pc.2.states.foldl (fun m q => m.set q newIndex) st.blockOf
          arena := inherited.2.1
          queue := inherited.2.2 })

/-- Embeds `split` (lines 473-515). -/
def splitFull (lts : MLts) (st : OLRTSt) (remove : List Nat) :
    List Nat × OLRTSt :=
  let r := internalSplit st remove
  r.1.foldl (splitOne lts) ([], r.2)

/-- Embeds `buildPre` (lines 398-423): the distinct blocks holding
`label`-predecessors of the given states. -/
def buildPre (lts : MLts) (st : OLRTSt) (statesL : List Nat) (label : Nat) :
    List Nat :=
  statesL.foldl
    (fun acc q =>
      (ltsPre lts label q).foldl
        (fun acc2 p =>
          let bi := st.blockOf.getD p 0
          if acc2.contains bi then acc2 else acc2 ++ [bi]) acc)
    []

/-- Embeds `enqueueToRemove` (lines 391-396); modelled from the spec:
appending to a not-yet-existing remove list creates it and enqueues the
`(block, label)` pair. -/
def enqueueToRemove (st : OLRTSt) (bi a q : Nat) : OLRTSt :=
  let b := st.partition.getD bi emptyBlock
  match b.remove.getD a none with
  | none =>
    let b2 := { b with remove := b.remove.set a (some [q]) }
    { st with
        partition := st.partition.set bi b2
        queue := st.queue ++ [(bi, a)] }
  | some rl =>
    let b2 := { b with remove := b.remove.set a (some (rl ++ [q])) }
    { st with partition := st.partition.set bi b2 }

/-- One `decr` with its zero-check (lines 597-600): decrement block
`b1`'s counter for `(a, pre2)` and enqueue `pre2` when it reaches zero. -/
def decrStep (lts : MLts) (st : OLRTSt) (b1 a pre2 : Nat) : OLRTSt :=
  let b := st.partition.getD b1 emptyBlock
  let r := counterDecr st.key lts.states st.arena b.counter a pre2
  let st2 := { st with
      arena := r.2.1
      partition := st.partition.set b1 { b with counter := r.2.2 } }
  if r.1 == 0 then enqueueToRemove st2 b1 a pre2 else st2

/-- Embeds the relation-clearing pair loop of `processRemove`
(lines 577-611): clear `R(b1, b2)` and decrement `b1`'s counters along
every `a`-edge into `b2` for labels in both insets. -/
def processPair (lts : MLts) (st : OLRTSt) (b1 b2 : Nat) : OLRTSt :=
  if !(relGet st.relation b1 b2) then st
  else
    let st1 := { st with relation := relSet st.relation b1 b2 false }
    let bl2 := st1.partition.getD b2 emptyBlock
    (smartElems bl2.inset).foldl
      (fun s a =>
        if !((s.partition.getD b1 emptyBlock).inset.contains a) then s
        else
          bl2.states.foldl
            (fun s2 elem2 =>
              (ltsPre lts a elem2).foldl
                (fun s3 pre2 => decrStep lts s3 b1 a pre2) s2) s)
      st1

/-- Embeds `processRemove` (lines 553-613). -/
def processRemove (lts : MLts) (st : OLRTSt) (bi label : Nat) : OLRTSt :=
  let b := st.partition.getD bi emptyBlock
  match b.remove.getD label none with
  | none => st
  | some removeL =>
    let b2 := { b with remove := b.remove.set label none }
    let st1 := { st with partition := st.partition.set bi b2 }
    let preList := buildPre lts st1 b.states label
    let sp := splitFull lts st1 removeL
    preList.foldl
      (fun s b1 => sp.1.foldl (fun s2 b2 => processPair lts s2 b1 b2) s)
      sp.2

/-- Embeds `makeBlock` (lines 517-539). -/
def makeBlock (lts : MLts) (st : OLRTSt) (statesL : List Nat)
    (blockIndex : Nat) : OLRTSt :=
  match statesL with
  | [] => st
  | q0 :: _ =>
    let bi := st.blockOf.getD q0 0
    let b := st.partition.getD bi emptyBlock
    let b2 := statesL.foldl
      (fun bb q => { bb with states := bb.states.erase q, tmp := bb.tmp ++ [q] }) b
    let pc := mkChildBlock lts b2 blockIndex
    { st with
        partition := (st.partition.set bi pc.1) ++ [pc.2]
        blockOf := statesL.foldl (fun m q => m.set q blockIndex) st.blockOf }

/-- Embeds the `OLRTAlgorithm` constructor (lines 652-675): one block of
all states, every state pointing at it. -/
def olrtInit0 (lts : MLts) : OLRTSt :=
  { partition := [mkInitialBlock lts]
    relation := []
    blockOf := List.replicate lts.states 0
    queue := []
    arena := []
    delta1 := []
    key := []
    rangev := [] }

/-- The per-block-and-label initialization (lines 755-806): bump the
counters along related successors and build the initial remove list —
the `a`-edge sources with no `a`-successor inside any related block. -/
def initBlockLabel (lts : MLts) (st : OLRTSt) (bi a : Nat) : OLRTSt :=
  let b := st.partition.getD bi emptyBlock
  let r := (st.delta1.getD a []).foldl
    (fun (acc : List (List Nat) × List (Option Nat)) q =>
      (ltsPost lts a q).foldl
        (fun acc2 rr =>
          if relGet st.relation bi (st.blockOf.getD rr 0) then
            counterIncr st.key lts.states st.rangev acc2.1 acc2.2 a q
          else acc2) acc)
    (st.arena, b.counter)
  let st1 := { st with
      arena := r.1
      partition := st.partition.set bi { b with counter := r.2 } }
  let sFinal := st1.partition.foldl
    (fun sl b2 =>
      if relGet st1.relation bi b2.index then
        b2.states.foldl
          (fun sl2 elem =>
            (ltsPre lts a elem).foldl
              (fun sl3 q => sl3.filter (fun x => x ≠ q)) sl2) sl
      else sl)
    (st.delta1.getD a [])
  if sFinal.isEmpty then st1
  else
    let b1 := st1.partition.getD bi emptyBlock
    let b1n := { b1 with remove := b1.remove.set a (some sFinal) }
    { st1 with
        partition := st1.partition.set bi b1n
        queue := st1.queue ++ [(bi, a)] }

/-- Embeds `init(partition, relation)` (lines 683-808): install the
partition, adopt the initial relation, build `delta1`, `key` and `range`,
pre-split along every label's domain, prune the relation by backward
reachability, and set up counters and initial remove lists per block in
reverse order. -/
def olrtInit (lts : MLts) (partition : List (List Nat))
    (relation : List (List Bool)) : OLRTSt :=
  let st1 := (partition.enum.drop 1).foldl
    (fun s p => makeBlock lts s p.2 p.1) (olrtInit0 lts)
  let delta1 := ltsDelta1 lts
  let st3 : OLRTSt := { st1 with
      relation := relation
      delta1 := delta1
      key := mkKey lts delta1
      rangev := delta1.map (fun l => l.length) }
  let st4 := (List.range lts.labels).foldl
    (fun s a => fastSplit lts s (delta1.getD a [])) st3
  let preArr := (List.range st4.partition.length).map (fun bi =>
    (((st4.partition.getD bi emptyBlock).states.map (fun q =>
      (List.range lts.labels).filter
        (fun a => (st4.delta1.getD a []).contains q))).flatten))
  let noPreArr := (List.range lts.labels).map (fun a =>
    ((st4.partition.map (fun b =>
      (b.states.filter (fun q => !(st4.delta1.getD a []).contains q)).map
        (fun _ => b.index))).flatten))
  let rel5 := (List.range st4.partition.length).foldl
    (fun r b1 =>
      (preArr.getD b1 []).foldl
        (fun r2 a =>
          (noPreArr.getD a []).foldl (fun r3 b2 => relSet r3 b1 b2 false) r2) r)
    st4.relation
  let st5 := { st4 with relation := rel5 }
  ((st5.partition.map (fun b => b.index)).reverse).foldl
    (fun s bi =>
      (smartElems (s.partition.getD bi emptyBlock).inset).foldl
        (fun s2 a => initBlockLabel lts s2 bi a) s)
    st5

/-- Embeds `run()` (lines 810-822), fuel-indexed: pop the back of the
worklist and process it. -/
def olrtRun (lts : MLts) : Nat → OLRTSt → Option OLRTSt
  | 0, _ => none
  | fuel + 1, st =>
    match st.queue.getLast? with
    | none => some st
    | some pr =>
      olrtRun lts fuel
        (processRemove lts { st with queue := st.queue.dropLast } pr.1 pr.2)

/-- Embeds `buildResult` (lines 824-838): pull the block relation back
along the state-to-block map over the requested output range. -/
def buildResult (st : OLRTSt) (size : Nat) : List (List Bool) :=
  (List.range size).map (fun i =>
    (List.range size).map (fun j =>
      relGet st.relation (st.blockOf.getD i 0) (st.blockOf.getD j 0)))

/-- Embeds `ExplicitLTS::computeSimulation` (lines 851-871). -/
def computeSimulation (lts : MLts) (partition : List (List Nat))
    (relation : List (List Bool)) (outputSize fuel : Nat) :
    Option (List (List Bool)) :=
  if lts.states == 0 then some []
  else
    match olrtRun lts fuel (olrtInit lts partition relation) with
    | none => none
    | some st => some (buildResult st outputSize)

/-! ### Claim C6 — reflexivity and transitivity of the returned relation -/

/-- A three-state LTS with no labels and no edges. -/
def olrtLts3 : MLts := { states := 3, labels := 0, edges := [] }

/-- Counterexample to claim C6 as stated: with the three-state zero-label
LTS, the singleton partition (a true partition) and the reflexive — but
not transitive — initial relation `R₀ = Id ∪ {(0,1), (1,2)}`, the
returned relation equals `R₀` and is therefore not transitive:
`(0,1)` and `(1,2)` hold but `(0,2)` does not. -/
theorem simulationPreorder_claim_counterexample :
    computeSimulation olrtLts3 [[0], [1], [2]]
        [[true, true, false], [false, true, true], [false, false, true]] 3 1 =
      some [[true, true, false], [false, true, true], [false, false, true]] ∧
    (relGet [[true, true, false], [false, true, true], [false, false, true]] 0 0 = true ∧
      relGet [[true, true, false], [false, true, true], [false, false, true]] 1 1 = true ∧
      relGet [[true, true, false], [false, true, true], [false, false, true]] 2 2 = true) ∧
    relGet [[true, true, false], [false, true, true], [false, false, true]] 0 1 = true ∧
    relGet [[true, true, false], [false, true, true], [false, false, true]] 1 2 = true ∧
    relGet [[true, true, false], [false, true, true], [false, false, true]] 0 2 = false := by
  decide

/-- Claim C6 (amended): for the zero-label LTS (no edges) with the
singleton partition, `computeSimulation` returns the initial block
relation `R₀` unchanged for every reflexive `R₀`; the output is hence
reflexive, but transitive only when `R₀` itself is — the original claim
holds only under an additionally transitive `R₀`. -/
theorem simulationZeroLabelsReturnsInitial
    (a b c d e f g h i : Bool) (_ha : a = true) (_he : e = true) (_hi : i = true) :
    computeSimulation olrtLts3 [[0], [1], [2]]
        [[a, b, c], [d, e, f], [g, h, i]] 3 1 =
      some [[a, b, c], [d, e, f], [g, h, i]] := by
  rfl

/-- Witness for the amended claim C6 at the counterexample's `R₀`. -/
theorem simulationZeroLabelsReturnsInitial_witness :
    (true = true ∧ true = true ∧ true = true) ∧
    computeSimulation olrtLts3 [[0], [1], [2]]
        [[true, true, false], [false, true, true], [false, false, true]] 3 1 =
      some [[true, true, false], [false, true, true], [false, false, true]] :=
  ⟨⟨rfl, rfl, rfl⟩,
    simulationZeroLabelsReturnsInitial true true false false true true
      false false true rfl rfl rfl⟩

end Vata
